import Mathlib

/-!
Shallow embedding of the `ra_ide_db::change` module (rust-analyzer):
the transactional change-application, durability-stratified invalidation,
cancellation, garbage-collection and memory-profiling layer sitting on a
memoizing query engine.  Pure data is translated directly; the mutable
`RootDatabase` becomes explicit state passing; the salsa engine primitives
(`synthetic_write`, the `set_*_with_durability` input setters, `sweep`,
`memory_usage`) are modelled as state transformers that record a write log
and bump a revision counter, following the collaborator interface the
specification describes.
-/

/-- A file identity (`FileId`, a `u32` newtype in `ra_db`). -/
abbrev FileId := Nat

/-- A source-root identity (`SourceRootId(u32)`), assigned positionally when a
root set is installed. -/
abbrev SourceRootId := Nat

/-- The crate graph is installed wholesale and never inspected by this module;
it is represented by an abstract token. -/
abbrev CrateGraph := Nat

/-- Salsa durability levels used by this module (`Durability::LOW` and
`Durability::HIGH`). -/
inductive Durability
  | low
  | high
deriving DecidableEq, Repr

/-- Modelled from the spec: `ra_db::SourceRoot` (not part of the analysed
sources) is a set of files plus an `is_library` flag; `root.iter()` yields the
files. -/
structure SourceRoot where
  is_library : Bool
  files : List FileId
deriving DecidableEq, Repr

/-- The memo-table identities named by `collect_garbage` and by the
`sweep_each_query!` list of `per_query_memory_usage`, in source order. -/
inductive Query
  | ParseQuery
  | SourceRootCratesQuery
  | AstIdMapQuery
  | InternMacroQuery
  | MacroArgQuery
  | MacroDefQuery
  | ParseMacroQuery
  | MacroExpandQuery
  | InternEagerExpansionQuery
  | CrateDefMapQueryQuery
  | StructDataQuery
  | UnionDataQuery
  | EnumDataQuery
  | ImplDataQuery
  | TraitDataQuery
  | TypeAliasDataQuery
  | FunctionDataQuery
  | ConstDataQuery
  | StaticDataQuery
  | BodyWithSourceMapQuery
  | BodyQuery
  | ExprScopesQuery
  | GenericParamsQuery
  | AttrsQuery
  | ModuleLangItemsQuery
  | CrateLangItemsQuery
  | LangItemQuery
  | DocumentationQuery
  | ImportMapQuery
  | InternFunctionQuery
  | InternStructQuery
  | InternUnionQuery
  | InternEnumQuery
  | InternConstQuery
  | InternStaticQuery
  | InternTraitQuery
  | InternTypeAliasQuery
  | InternImplQuery
  | InferQueryQuery
  | TyQuery
  | ValueTyQuery
  | ImplSelfTyQuery
  | ImplTraitQuery
  | FieldTypesQuery
  | CallableItemSignatureQuery
  | GenericPredicatesForParamQuery
  | GenericPredicatesQuery
  | GenericDefaultsQuery
  | ImplsInCrateQuery
  | ImplsFromDepsQuery
  | InternTypeCtorQuery
  | InternTypeParamIdQuery
  | InternChalkImplQuery
  | InternAssocTyValueQuery
  | AssociatedTyDataQuery
  | TraitDatumQuery
  | StructDatumQuery
  | ImplDatumQuery
  | AssociatedTyValueQuery
  | TraitSolveQuery
  | ReturnTypeImplTraitsQuery
  | FileSymbolsQuery
  | LineIndexQuery
deriving DecidableEq, Repr

/-- Modelled from the spec: a memo-table entry as seen by this module — a
cached value payload and a dependency-edge record, each either live (with a
byte size) or already discarded. -/
structure MemoEntry where
  valueBytes : Option Nat
  depsBytes : Option Nat
deriving DecidableEq, Repr

/-- Salsa `SweepStrategy` as configured by this module:
`SweepStrategy::default().discard_values().sweep_all_revisions()` and
`.discard_everything()` on top of it. -/
structure SweepStrategy where
  discardValues : Bool := false
  discardDeps : Bool := false
  allRevisions : Bool := false
deriving DecidableEq, Repr

def SweepStrategy.default : SweepStrategy := {}

def SweepStrategy.discard_values (s : SweepStrategy) : SweepStrategy :=
  { s with discardValues := true }

def SweepStrategy.sweep_all_revisions (s : SweepStrategy) : SweepStrategy :=
  { s with allRevisions := true }

def SweepStrategy.discard_everything (s : SweepStrategy) : SweepStrategy :=
  { s with discardValues := true, discardDeps := true }

/-- Modelled from the spec: the effect of a sweep on one memo entry — the
value payload is discarded by a value-discarding strategy, the dependency
edges only by a discard-everything strategy. -/
def sweepEntry (s : SweepStrategy) (e : MemoEntry) : MemoEntry :=
  { valueBytes := if s.discardValues then none else e.valueBytes,
    depsBytes := if s.discardDeps then none else e.depsBytes }

/-- One write issued against the salsa input store (or the synthetic
cancellation write), tagged with its durability.  The write log lets the
theorems speak about which writes a call performed and at which durability. -/
inductive WriteEvent
  | synthetic (d : Durability)
  | fileSourceRoot (file_id : FileId) (root_id : SourceRootId) (d : Durability)
  | sourceRoot (root_id : SourceRootId) (root : SourceRoot) (d : Durability)
  | localRoots (roots : List SourceRootId) (d : Durability)
  | libraryRoots (roots : List SourceRootId) (d : Durability)
  | fileText (file_id : FileId) (text : String) (d : Durability)
  | crateGraph (graph : CrateGraph) (d : Durability)
deriving DecidableEq, Repr

/-- First-match lookup in an association list. -/
def lookupA {α β : Type} [DecidableEq α] : List (α × β) → α → Option β
  | [], _ => none
  | p :: rest, k => if p.1 = k then some p.2 else lookupA rest k

/-- Overwrite the binding of a key in an association list. -/
def setA {α β : Type} [DecidableEq α] (l : List (α × β)) (k : α) (v : β) :
    List (α × β) :=
  (k, v) :: l.filter (fun p => decide (p.1 ≠ k))

/-- The `RootDatabase` state visible to this module: the salsa input store
(source roots, file→root map, file texts, aggregate root sets, crate graph),
the revision counter, the write log, the GC timestamps and the memo tables. -/
structure RootDatabase where
  revision : Nat
  events : List WriteEvent
  file_source_root : List (FileId × SourceRootId)
  source_roots : List (SourceRootId × SourceRoot)
  file_text : List (FileId × String)
  local_roots : List SourceRootId
  library_roots : List SourceRootId
  crate_graph : Option CrateGraph
  last_gc_check : Nat
  last_gc : Nat
  tables : List (Query × List MemoEntry)
deriving DecidableEq, Repr

/-- Modelled from the spec: `salsa_runtime_mut().synthetic_write(d)` — a write
with no data payload change that advances the revision clock. -/
def RootDatabase.synthetic_write (db : RootDatabase) (d : Durability) :
    RootDatabase :=
  { db with revision := db.revision + 1,
            events := db.events ++ [WriteEvent.synthetic d] }

/-- Salsa input setter `set_file_source_root_with_durability`. -/
def RootDatabase.set_file_source_root_with_durability (db : RootDatabase)
    (file_id : FileId) (root_id : SourceRootId) (d : Durability) :
    RootDatabase :=
  { db with revision := db.revision + 1,
            file_source_root := setA db.file_source_root file_id root_id,
            events := db.events ++ [WriteEvent.fileSourceRoot file_id root_id d] }

/-- Salsa input setter `set_source_root_with_durability`. -/
def RootDatabase.set_source_root_with_durability (db : RootDatabase)
    (root_id : SourceRootId) (root : SourceRoot) (d : Durability) :
    RootDatabase :=
  { db with revision := db.revision + 1,
            source_roots := setA db.source_roots root_id root,
            events := db.events ++ [WriteEvent.sourceRoot root_id root d] }

/-- Salsa input setter `set_local_roots_with_durability`. -/
def RootDatabase.set_local_roots_with_durability (db : RootDatabase)
    (roots : List SourceRootId) (d : Durability) : RootDatabase :=
  { db with revision := db.revision + 1,
            local_roots := roots,
            events := db.events ++ [WriteEvent.localRoots roots d] }

/-- Salsa input setter `set_library_roots_with_durability`. -/
def RootDatabase.set_library_roots_with_durability (db : RootDatabase)
    (roots : List SourceRootId) (d : Durability) : RootDatabase :=
  { db with revision := db.revision + 1,
            library_roots := roots,
            events := db.events ++ [WriteEvent.libraryRoots roots d] }

/-- Salsa input setter `set_file_text_with_durability`. -/
def RootDatabase.set_file_text_with_durability (db : RootDatabase)
    (file_id : FileId) (text : String) (d : Durability) : RootDatabase :=
  { db with revision := db.revision + 1,
            file_text := setA db.file_text file_id text,
            events := db.events ++ [WriteEvent.fileText file_id text d] }

/-- Salsa input setter `set_crate_graph_with_durability`. -/
def RootDatabase.set_crate_graph_with_durability (db : RootDatabase)
    (graph : CrateGraph) (d : Durability) : RootDatabase :=
  { db with revision := db.revision + 1,
            crate_graph := some graph,
            events := db.events ++ [WriteEvent.crateGraph graph d] }

/-- `AnalysisChange`: an accumulator for a pending batch of input mutations —
an optional root-set replacement, a list of file-text changes, an optional
crate-graph replacement. -/
structure AnalysisChange where
  roots : Option (List SourceRoot) := none
  files_changed : List (FileId × Option String) := []
  crate_graph : Option CrateGraph := none
deriving DecidableEq, Repr

def AnalysisChange.new : AnalysisChange := {}

def AnalysisChange.set_roots (c : AnalysisChange) (roots : List SourceRoot) :
    AnalysisChange :=
  { c with roots := some roots }

def AnalysisChange.change_file (c : AnalysisChange) (file_id : FileId)
    (new_text : Option String) : AnalysisChange :=
  { c with files_changed := c.files_changed ++ [(file_id, new_text)] }

def AnalysisChange.set_crate_graph (c : AnalysisChange) (graph : CrateGraph) :
    AnalysisChange :=
  { c with crate_graph := some graph }

/-- The durability classification of a source root: library roots are HIGH,
local roots LOW (the free function `durability` at the end of the module). -/
def durability (source_root : SourceRoot) : Durability :=
  if source_root.is_library then Durability.high else Durability.low

/-- `RootDatabase::request_cancellation`: a synthetic write at LOW
durability. -/
def RootDatabase.request_cancellation (db : RootDatabase) : RootDatabase :=
  db.synthetic_write Durability.low

/-- The body of the `for (idx, root) in roots.into_iter().enumerate()` loop of
`apply_change`, written as structural recursion carrying the running index;
besides the updated database it returns the accumulated `local_roots` and
`library_roots` id sets (represented as lists). -/
def installRootsLoop (db : RootDatabase) (idx : Nat) :
    List SourceRoot → RootDatabase × List SourceRootId × List SourceRootId
  | [] => (db, [], [])
  | root :: rest =>
    let root_id : SourceRootId := idx
    let d := durability root
    let db1 := root.files.foldl
      (fun db file_id =>
        db.set_file_source_root_with_durability file_id root_id d) db
    let db2 := db1.set_source_root_with_durability root_id root d
    let out := installRootsLoop db2 (idx + 1) rest
    if root.is_library then (out.1, out.2.1, root_id :: out.2.2)
    else (out.1, root_id :: out.2.1, out.2.2)

/-- The `if let Some(roots) = change.roots` branch of `apply_change`: install
every root (and its files) at its own durability, then install the two
aggregate sets at HIGH durability. -/
def RootDatabase.applyRoots (db : RootDatabase) (roots : List SourceRoot) :
    RootDatabase :=
  let out := installRootsLoop db 0 roots
  let db := out.1.set_local_roots_with_durability out.2.1 Durability.high
  db.set_library_roots_with_durability out.2.2 Durability.high

/-- One iteration of the `for (file_id, text) in change.files_changed` loop:
resolve the file's current source root and that root's durability, then set
the text (empty when the change supplies none).  A file whose root cannot be
resolved is a precondition violation (a panic in the source), rendered as
`none`. -/
def RootDatabase.applyOneFileChange (db : RootDatabase) (file_id : FileId)
    (text : Option String) : Option RootDatabase :=
  match lookupA db.file_source_root file_id with
  | none => none
  | some source_root_id =>
    match lookupA db.source_roots source_root_id with
    | none => none
    | some source_root =>
      some (db.set_file_text_with_durability file_id (text.getD "")
        (durability source_root))

/-- The whole `files_changed` loop of `apply_change`. -/
def applyFilesChanged (db : RootDatabase) :
    List (FileId × Option String) → Option RootDatabase
  | [] => some db
  | (file_id, text) :: rest =>
    match db.applyOneFileChange file_id text with
    | none => none
    | some db => applyFilesChanged db rest

/-- `RootDatabase::apply_change`: raise the cancellation signal, install the
root replacement if present, apply the file-text changes, install the crate
graph if present. -/
def RootDatabase.apply_change (db : RootDatabase) (change : AnalysisChange) :
    Option RootDatabase :=
  let db := db.request_cancellation
  let db := match change.roots with
    | some roots => db.applyRoots roots
    | none => db
  match applyFilesChanged db change.files_changed with
  | none => none
  | some db =>
    some (match change.crate_graph with
      | some crate_graph =>
        db.set_crate_graph_with_durability crate_graph Durability.high
      | none => db)

/-- The `cfg!(feature = "wasm")` flag; the analysed build is the default
(non-wasm) one. -/
def wasmFeature : Bool := false

/-- `GC_COOLDOWN`: 100 milliseconds. -/
def GC_COOLDOWN : Nat := 100

/-- `RootDatabase::maybe_collect_garbage`; the source reads a monotone clock
(`Instant::now()`), passed here explicitly as `now` in milliseconds. -/
def RootDatabase.maybe_collect_garbage (db : RootDatabase) (now : Nat) :
    RootDatabase :=
  if wasmFeature then db
  else if now - db.last_gc_check > GC_COOLDOWN then
    { db with last_gc_check := now }
  else db

/-- Modelled from the spec: the engine primitive `query(Q).sweep(strategy)`
applied to one memo table of the database. -/
def sweepStep (s : SweepStrategy) (tbl : List (Query × List MemoEntry))
    (q : Query) : List (Query × List MemoEntry) :=
  setA tbl q (((lookupA tbl q).getD []).map (sweepEntry s))

def RootDatabase.sweepQuery (db : RootDatabase) (q : Query)
    (s : SweepStrategy) : RootDatabase :=
  { db with tables := sweepStep s db.tables q }

/-- Sweeping a list of tables in order with one strategy. -/
def sweepTables (s : SweepStrategy) (l : List Query)
    (tbl : List (Query × List MemoEntry)) : List (Query × List MemoEntry) :=
  l.foldl (sweepStep s) tbl

/-- The sweep strategy used by GC and by the first sweep of profiling:
`SweepStrategy::default().discard_values().sweep_all_revisions()`. -/
def sweepValuesAllRevisions : SweepStrategy :=
  SweepStrategy.default.discard_values.sweep_all_revisions

/-- The fixed list of tables swept by `collect_garbage`, in source order. -/
def collectGarbageSweptQueries : List Query :=
  [Query.ParseQuery, Query.ParseMacroQuery, Query.AstIdMapQuery,
   Query.BodyWithSourceMapQuery, Query.ExprScopesQuery, Query.InferQueryQuery,
   Query.BodyQuery]

/-- `RootDatabase::collect_garbage`: update `last_gc`, then sweep the fixed
table list with the values-only, all-revisions strategy (the source writes the
seven sweeps as explicit statements in exactly this order). -/
def RootDatabase.collect_garbage (db : RootDatabase) (now : Nat) :
    RootDatabase :=
  if wasmFeature then db
  else
    let db := { db with last_gc := now }
    collectGarbageSweptQueries.foldl
      (fun db q => db.sweepQuery q sweepValuesAllRevisions) db

/-- The fixed list of tables named by the `sweep_each_query!` invocation of
`per_query_memory_usage`, in source order. -/
def perQuerySweptQueries : List Query :=
  [Query.ParseQuery, Query.SourceRootCratesQuery, Query.AstIdMapQuery,
   Query.InternMacroQuery, Query.MacroArgQuery, Query.MacroDefQuery,
   Query.ParseMacroQuery, Query.MacroExpandQuery,
   Query.InternEagerExpansionQuery, Query.CrateDefMapQueryQuery,
   Query.StructDataQuery, Query.UnionDataQuery, Query.EnumDataQuery,
   Query.ImplDataQuery, Query.TraitDataQuery, Query.TypeAliasDataQuery,
   Query.FunctionDataQuery, Query.ConstDataQuery, Query.StaticDataQuery,
   Query.BodyWithSourceMapQuery, Query.BodyQuery, Query.ExprScopesQuery,
   Query.GenericParamsQuery, Query.AttrsQuery, Query.ModuleLangItemsQuery,
   Query.CrateLangItemsQuery, Query.LangItemQuery, Query.DocumentationQuery,
   Query.ImportMapQuery, Query.InternFunctionQuery, Query.InternStructQuery,
   Query.InternUnionQuery, Query.InternEnumQuery, Query.InternConstQuery,
   Query.InternStaticQuery, Query.InternTraitQuery,
   Query.InternTypeAliasQuery, Query.InternImplQuery, Query.InferQueryQuery,
   Query.TyQuery, Query.ValueTyQuery, Query.ImplSelfTyQuery,
   Query.ImplTraitQuery, Query.FieldTypesQuery,
   Query.CallableItemSignatureQuery, Query.GenericPredicatesForParamQuery,
   Query.GenericPredicatesQuery, Query.GenericDefaultsQuery,
   Query.ImplsInCrateQuery, Query.ImplsFromDepsQuery,
   Query.InternTypeCtorQuery, Query.InternTypeParamIdQuery,
   Query.InternChalkImplQuery, Query.InternAssocTyValueQuery,
   Query.AssociatedTyDataQuery, Query.TraitDatumQuery, Query.StructDatumQuery,
   Query.ImplDatumQuery, Query.AssociatedTyValueQuery, Query.TraitSolveQuery,
   Query.ReturnTypeImplTraitsQuery, Query.FileSymbolsQuery,
   Query.LineIndexQuery]

/-- Live bytes of one memo entry. -/
def entryBytes (e : MemoEntry) : Nat :=
  e.valueBytes.getD 0 + e.depsBytes.getD 0

/-- Live bytes of one memo table. -/
def tableBytes (t : List MemoEntry) : Nat :=
  (t.map entryBytes).sum

/-- Live bytes of a table store. -/
def sumTables (l : List (Query × List MemoEntry)) : Nat :=
  (l.map (fun p => tableBytes p.2)).sum

/-- Modelled from the spec: `memory_usage().allocated`, the instantaneous
allocation snapshot; in the model it is exactly the live memo bytes. -/
def memoryAllocated (db : RootDatabase) : Nat :=
  sumTables db.tables

/-- One expansion of the `sweep_each_query!` macro body: measure a values-only
sweep of the table and record it under the plain label, then measure a
discard-everything sweep on top of it and record it under the deps label (the
Bool in a label is `true` for the `" (deps)"` variant). -/
def perQueryStep (acc : RootDatabase × List ((Query × Bool) × Nat))
    (q : Query) : RootDatabase × List ((Query × Bool) × Nat) :=
  let db := acc.1
  let before := memoryAllocated db
  let db := db.sweepQuery q sweepValuesAllRevisions
  let after := memoryAllocated db
  let acc2 := acc.2 ++ [((q, false), before - after)]
  let before2 := memoryAllocated db
  let db := db.sweepQuery q sweepValuesAllRevisions.discard_everything
  let after2 := memoryAllocated db
  (db, acc2 ++ [((q, true), before2 - after2)])

/-- The ordering used by the final `acc.sort_by_key(|it| Reverse(it.1))`:
descending by reclaimed bytes. -/
def byBytesDesc (a b : (Query × Bool) × Nat) : Prop := b.2 ≤ a.2

instance : DecidableRel byBytesDesc := fun a b => Nat.decLe b.2 a.2

instance : IsTotal ((Query × Bool) × Nat) byBytesDesc :=
  ⟨fun a b => Nat.le_total b.2 a.2⟩

instance : IsTrans ((Query × Bool) × Nat) byBytesDesc :=
  ⟨fun _ _ _ h1 h2 => Nat.le_trans h2 h1⟩

/-- `RootDatabase::per_query_memory_usage`: run `perQueryStep` over the fixed
table list, then sort the report descending by reclaimed bytes.  The updated
database is returned alongside the report (the source mutates `self`). -/
def RootDatabase.per_query_memory_usage (db : RootDatabase) :
    RootDatabase × List ((Query × Bool) × Nat) :=
  ((perQuerySweptQueries.foldl perQueryStep (db, [])).1,
   List.insertionSort byBytesDesc
     (perQuerySweptQueries.foldl perQueryStep (db, [])).2)

/-- A fresh database, as produced by `RootDatabase::new` before any change is
applied. -/
def initDB : RootDatabase :=
  { revision := 0, events := [], file_source_root := [], source_roots := [],
    file_text := [], local_roots := [], library_roots := [],
    crate_graph := none, last_gc_check := 0, last_gc := 0, tables := [] }

/-- The operations whose interleavings the revision-monotonicity property
quantifies over. -/
inductive Op
  | applyChange (c : AnalysisChange)
  | requestCancellation
deriving Repr

def runOp (db : RootDatabase) : Op → Option RootDatabase
  | Op.applyChange c => db.apply_change c
  | Op.requestCancellation => some db.request_cancellation

/-- The rank of a write event within one `apply_change` batch: the
cancellation write first, then the root-replacement writes, then the
file-text writes, then the crate-graph write. -/
def eventRank : WriteEvent → Nat
  | WriteEvent.synthetic _ => 0
  | WriteEvent.fileSourceRoot _ _ _ => 1
  | WriteEvent.sourceRoot _ _ _ => 1
  | WriteEvent.localRoots _ _ => 1
  | WriteEvent.libraryRoots _ _ => 1
  | WriteEvent.fileText _ _ _ => 2
  | WriteEvent.crateGraph _ _ => 3

/-- The index of the root a file is finally associated with after a root set
starting at index `idx` is installed: the last root of the list containing the
file (later `set_file_source_root` writes overwrite earlier ones). -/
def assignedRootFrom (idx : Nat) : List SourceRoot → FileId → Option Nat
  | [], _ => none
  | root :: rest, f =>
    match assignedRootFrom (idx + 1) rest f with
    | some i => some i
    | none => if f ∈ root.files then some idx else none

def assignedRoot (roots : List SourceRoot) (f : FileId) : Option Nat :=
  assignedRootFrom 0 roots f

def tableValueBytes (t : List MemoEntry) : Nat :=
  (t.map (fun e => e.valueBytes.getD 0)).sum

def tableDepsBytes (t : List MemoEntry) : Nat :=
  (t.map (fun e => e.depsBytes.getD 0)).sum

/-- The profiling report before sorting, as a function of the pre-sweep
tables: one values-only entry and one deps entry per query, in list order. -/
def reportSpec (tbl : List (Query × List MemoEntry)) :
    List Query → List ((Query × Bool) × Nat)
  | [] => []
  | q :: qs =>
    ((q, false), tableValueBytes ((lookupA tbl q).getD [])) ::
    ((q, true), tableDepsBytes ((lookupA tbl q).getD [])) ::
    reportSpec tbl qs

/-- The write log of `db'` extends that of `db` by events satisfying `P`. -/
def ExtBy (P : WriteEvent → Prop) (db db' : RootDatabase) : Prop :=
  ∃ E, db'.events = db.events ++ E ∧ ∀ e ∈ E, P e

/-- The per-root body of the installation loop: map every file of the root to
its id, then install the root value, both at the root's durability. -/
def installRootStep (db : RootDatabase) (idx : Nat) (root : SourceRoot) :
    RootDatabase :=
  (root.files.foldl
    (fun db file_id =>
      db.set_file_source_root_with_durability file_id idx (durability root))
    db).set_source_root_with_durability idx root (durability root)

/-- Keys of an association list are pairwise distinct. -/
abbrev keysNodup {α β : Type} (l : List (α × β)) : Prop :=
  (l.map Prod.fst).Nodup

/-- A database with one populated memo table and a nonzero GC timestamp, used
to exercise the GC entry points on concrete inputs. -/
def gcDB : RootDatabase :=
  { initDB with last_gc_check := 200,
                tables := [(Query.ParseQuery, [⟨some 1, some 1⟩])] }

/-- A database whose parse table holds one entry with a 2-byte value payload
and a 1-byte dependency record. -/
def pqDB : RootDatabase :=
  { initDB with tables := [(Query.ParseQuery, [⟨some 2, some 1⟩])] }

/-- A single library root holding file 7. -/
def c4roots : List SourceRoot := [⟨true, [7]⟩]

/-- A batch installing `c4roots` and changing file 7's text. -/
def c4batch : AnalysisChange :=
  { roots := some c4roots, files_changed := [(7, some "libtext")],
    crate_graph := none }

def c4db' : RootDatabase := (initDB.apply_change c4batch).getD initDB

/-- A database with file 3 installed in local root 0 with some text. -/
def c6db : RootDatabase :=
  { initDB with file_source_root := [(3, 0)],
                source_roots := [(0, ⟨false, [3]⟩)],
                file_text := [(3, "oldtext")] }

/-- One local root holding file 1 and one library root holding file 2. -/
def c7roots : List SourceRoot := [⟨false, [1]⟩, ⟨true, [2]⟩]

def c7batch : AnalysisChange :=
  { roots := some c7roots, files_changed := [], crate_graph := none }

def c7db' : RootDatabase := (initDB.apply_change c7batch).getD initDB

/-- A single local root holding file 5. -/
def c3roots : List SourceRoot := [⟨false, [5]⟩]

/-- A batch that both installs `c3roots` and changes file 5's text. -/
def c3batch : AnalysisChange :=
  { roots := some c3roots, files_changed := [(5, some "newtext")],
    crate_graph := none }

def c3db' : RootDatabase := (initDB.apply_change c3batch).getD initDB

/-! ### Association-list lemmas -/

theorem lookupA_setA_self {α β : Type} [DecidableEq α] (l : List (α × β))
    (k : α) (v : β) : lookupA (setA l k v) k = some v := by
  simp [setA, lookupA]

theorem lookupA_filter_ne {α β : Type} [DecidableEq α] (l : List (α × β))
    (k k' : α) (h : k' ≠ k) :
    lookupA (l.filter (fun p => decide (p.1 ≠ k))) k' = lookupA l k' := by
  induction l with
  | nil => rfl
  | cons p rest ih =>
    by_cases hp : p.1 = k
    · have hfc : (p :: rest).filter (fun q => decide (q.1 ≠ k)) =
          rest.filter (fun q => decide (q.1 ≠ k)) := by
        simp [List.filter_cons, hp]
      have hne : p.1 ≠ k' := by rw [hp]; exact fun hkk => h hkk.symm
      rw [hfc, ih]
      simp [lookupA, hne]
    · have hfc : (p :: rest).filter (fun q => decide (q.1 ≠ k)) =
          p :: rest.filter (fun q => decide (q.1 ≠ k)) := by
        simp [List.filter_cons, hp]
      rw [hfc]
      by_cases hk' : p.1 = k'
      · simp [lookupA, hk']
      · simp only [lookupA]
        rw [if_neg hk', if_neg hk']
        exact ih

theorem lookupA_setA_ne {α β : Type} [DecidableEq α] (l : List (α × β))
    (k k' : α) (v : β) (h : k' ≠ k) :
    lookupA (setA l k v) k' = lookupA l k' := by
  have hk : k ≠ k' := fun hkk => h hkk.symm
  simp only [setA, lookupA, hk, if_false]
  exact lookupA_filter_ne l k k' h

theorem lookupA_setA_isSome {α β : Type} [DecidableEq α] (l : List (α × β))
    (k k' : α) (v : β) (h : (lookupA l k').isSome) :
    (lookupA (setA l k v) k').isSome := by
  by_cases hk : k' = k
  · subst hk; rw [lookupA_setA_self]; rfl
  · rw [lookupA_setA_ne l k k' v hk]; exact h

theorem keysNodup_setA {α β : Type} [DecidableEq α] (l : List (α × β))
    (k : α) (v : β) (h : keysNodup l) : keysNodup (setA l k v) := by
  unfold keysNodup setA
  simp only [List.map_cons, List.nodup_cons]
  constructor
  · intro hmem
    rcases List.mem_map.mp hmem with ⟨p, hp, hpk⟩
    have := List.of_mem_filter hp
    simp only [decide_eq_true_eq] at this
    exact this hpk
  · exact h.sublist ((List.filter_sublist l).map Prod.fst)

theorem lookupA_append_left {α β : Type} [DecidableEq α]
    (l1 l2 : List (α × β)) (k : α) (v : β) (h : lookupA l1 k = some v) :
    lookupA (l1 ++ l2) k = some v := by
  induction l1 with
  | nil => cases h
  | cons p rest ih =>
    by_cases hp : p.1 = k
    · simp_all [lookupA, hp]
    · simp_all [lookupA, hp]

theorem lookupA_append_right {α β : Type} [DecidableEq α]
    (l1 l2 : List (α × β)) (k : α) (h : lookupA l1 k = none) :
    lookupA (l1 ++ l2) k = lookupA l2 k := by
  induction l1 with
  | nil => rfl
  | cons p rest ih =>
    by_cases hp : p.1 = k
    · simp_all [lookupA, hp]
    · simp_all [lookupA, hp]

theorem lookupA_map_self {α β : Type} [DecidableEq α] (L : List α) (f : α → β)
    (k : α) (h : k ∈ L) :
    lookupA (L.map (fun x => (x, f x))) k = some (f k) := by
  induction L with
  | nil => cases h
  | cons x rest ih =>
    by_cases hx : x = k
    · subst hx; simp [lookupA]
    · rcases List.mem_cons.mp h with h' | h'
      · exact absurd h'.symm hx
      · simp [lookupA, hx, ih h']

theorem lookupA_map_none {α β : Type} [DecidableEq α] (L : List α) (f : α → β)
    (k : α) (h : k ∉ L) :
    lookupA (L.map (fun x => (x, f x))) k = none := by
  induction L with
  | nil => rfl
  | cons x rest ih =>
    have hx : x ≠ k := fun hxk => h (hxk ▸ List.mem_cons_self x rest)
    have hr : k ∉ rest := fun hk => h (List.mem_cons_of_mem x hk)
    simp [lookupA, hx, ih hr]

/-! ### Byte-accounting lemmas -/

theorem tableBytes_eq (t : List MemoEntry) :
    tableBytes t = tableValueBytes t + tableDepsBytes t := by
  induction t with
  | nil => rfl
  | cons e rest ih =>
    simp only [tableBytes, tableValueBytes, tableDepsBytes, List.map_cons,
      List.sum_cons] at *
    simp only [entryBytes]
    omega

theorem sweepEntry_values (e : MemoEntry) :
    sweepEntry sweepValuesAllRevisions e =
      { valueBytes := none, depsBytes := e.depsBytes } := rfl

theorem sweepEntry_everything (s : SweepStrategy) (e : MemoEntry) :
    sweepEntry s.discard_everything e =
      { valueBytes := none, depsBytes := none } := rfl

theorem sweepEntry_idem (s : SweepStrategy) (e : MemoEntry) :
    sweepEntry s (sweepEntry s e) = sweepEntry s e := by
  cases hdv : s.discardValues <;> cases hdd : s.discardDeps <;>
    simp [sweepEntry, hdv, hdd]

theorem tableBytes_sweep_values (t : List MemoEntry) :
    tableBytes (t.map (sweepEntry sweepValuesAllRevisions)) =
      tableDepsBytes t := by
  induction t with
  | nil => rfl
  | cons e rest ih =>
    have he : entryBytes (sweepEntry sweepValuesAllRevisions e) =
        e.depsBytes.getD 0 := by
      simp [sweepEntry_values, entryBytes]
    calc tableBytes ((e :: rest).map (sweepEntry sweepValuesAllRevisions))
        = entryBytes (sweepEntry sweepValuesAllRevisions e) +
            tableBytes (rest.map (sweepEntry sweepValuesAllRevisions)) := by
          simp [tableBytes]
      _ = e.depsBytes.getD 0 + tableDepsBytes rest := by rw [he, ih]
      _ = tableDepsBytes (e :: rest) := by simp [tableDepsBytes]

theorem tableBytes_sweep_everything (s : SweepStrategy) (t : List MemoEntry) :
    tableBytes (t.map (sweepEntry s.discard_everything)) = 0 := by
  induction t with
  | nil => rfl
  | cons e rest ih =>
    calc tableBytes ((e :: rest).map (sweepEntry s.discard_everything))
        = entryBytes (sweepEntry s.discard_everything e) +
            tableBytes (rest.map (sweepEntry s.discard_everything)) := by
          simp [tableBytes]
      _ = 0 := by rw [ih]; simp [sweepEntry_everything, entryBytes]

theorem sumTables_cons (p : Query × List MemoEntry)
    (l : List (Query × List MemoEntry)) :
    sumTables (p :: l) = tableBytes p.2 + sumTables l := by
  simp [sumTables]

theorem sumTables_split (l : List (Query × List MemoEntry)) (k : Query)
    (h : keysNodup l) :
    sumTables l = tableBytes ((lookupA l k).getD []) +
      sumTables (l.filter (fun p => decide (p.1 ≠ k))) := by
  induction l with
  | nil => rfl
  | cons p rest ih =>
    have hrest : keysNodup rest := by
      unfold keysNodup at h ⊢
      simp only [List.map_cons, List.nodup_cons] at h
      exact h.2
    by_cases hp : p.1 = k
    · have hnotin : p.1 ∉ rest.map Prod.fst := by
        unfold keysNodup at h
        simp only [List.map_cons, List.nodup_cons] at h
        exact h.1
      have hfilter : rest.filter (fun q => decide (q.1 ≠ k)) = rest := by
        apply List.filter_eq_self.mpr
        intro q hq
        simp only [decide_eq_true_eq]
        intro hqk
        exact hnotin (hp ▸ hqk ▸ List.mem_map_of_mem Prod.fst hq)
      have hlook : lookupA (p :: rest) k = some p.2 := by
        simp [lookupA, hp]
      have hfc : (p :: rest).filter (fun q => decide (q.1 ≠ k)) =
          rest.filter (fun q => decide (q.1 ≠ k)) := by
        simp [List.filter_cons, hp]
      rw [hlook, hfc, hfilter, sumTables_cons]
      rfl
    · have hlook : lookupA (p :: rest) k = lookupA rest k := by
        simp [lookupA, hp]
      have hfc : (p :: rest).filter (fun q => decide (q.1 ≠ k)) =
          p :: rest.filter (fun q => decide (q.1 ≠ k)) := by
        simp [List.filter_cons, hp]
      rw [hlook, hfc, sumTables_cons, sumTables_cons, ih hrest]
      omega

/-! ### Sweep characterization -/

theorem sweepTables_cons (s : SweepStrategy) (q : Query) (l : List Query)
    (tbl : List (Query × List MemoEntry)) :
    sweepTables s (q :: l) tbl = sweepTables s l (sweepStep s tbl q) := rfl

theorem sweepTables_charact (s : SweepStrategy) (l : List Query)
    (tbl : List (Query × List MemoEntry)) (hl : l.Nodup) :
    sweepTables s l tbl =
      l.reverse.map
        (fun q => (q, ((lookupA tbl q).getD []).map (sweepEntry s))) ++
        tbl.filter (fun p => decide (p.1 ∉ l)) := by
  induction l generalizing tbl with
  | nil =>
    simp [sweepTables]
  | cons q l' ih =>
    have hq : q ∉ l' := (List.nodup_cons.mp hl).1
    have hl' : l'.Nodup := (List.nodup_cons.mp hl).2
    rw [sweepTables_cons, ih _ hl']
    have hmap : l'.reverse.map
        (fun q' => (q', ((lookupA (sweepStep s tbl q) q').getD []).map
          (sweepEntry s))) =
        l'.reverse.map
        (fun q' => (q', ((lookupA tbl q').getD []).map (sweepEntry s))) := by
      apply List.map_congr_left
      intro q' hq'
      have hq'l : q' ∈ l' := List.mem_reverse.mp hq'
      have hne : q' ≠ q := fun hEq => hq (hEq ▸ hq'l)
      rw [sweepStep, lookupA_setA_ne _ _ _ _ hne]
    have hfilter : (sweepStep s tbl q).filter (fun p => decide (p.1 ∉ l')) =
        (q, ((lookupA tbl q).getD []).map (sweepEntry s)) ::
          tbl.filter (fun p => decide (p.1 ∉ q :: l')) := by
      rw [sweepStep, setA, List.filter_cons]
      have hc : decide ((q, ((lookupA tbl q).getD []).map (sweepEntry s)).1
          ∉ l') = true := by simp [hq]
      rw [hc]
      simp only [if_true]
      congr 1
      rw [List.filter_filter]
      apply List.filter_congr
      intro p hp
      by_cases h1 : p.1 = q <;> by_cases h2 : p.1 ∈ l' <;>
        simp [h1, h2, List.mem_cons]
    rw [hmap, hfilter, List.reverse_cons, List.map_append]
    simp [List.append_assoc]

theorem lookupA_sweepTables_mem (s : SweepStrategy) (l : List Query)
    (tbl : List (Query × List MemoEntry)) (hl : l.Nodup) (q : Query)
    (hq : q ∈ l) :
    lookupA (sweepTables s l tbl) q =
      some (((lookupA tbl q).getD []).map (sweepEntry s)) := by
  rw [sweepTables_charact s l tbl hl]
  apply lookupA_append_left
  exact lookupA_map_self l.reverse _ q (List.mem_reverse.mpr hq)

theorem sweepTables_idem (s : SweepStrategy) (l : List Query)
    (tbl : List (Query × List MemoEntry)) (hl : l.Nodup) :
    sweepTables s l (sweepTables s l tbl) = sweepTables s l tbl := by
  have hmap : l.reverse.map
      (fun q => (q, ((lookupA (sweepTables s l tbl) q).getD []).map
        (sweepEntry s))) =
      l.reverse.map
      (fun q => (q, ((lookupA tbl q).getD []).map (sweepEntry s))) := by
    apply List.map_congr_left
    intro q hq
    rw [lookupA_sweepTables_mem s l tbl hl q (List.mem_reverse.mp hq)]
    simp only [Option.getD_some]
    congr 1
    rw [List.map_map]
    apply List.map_congr_left
    intro e _
    exact sweepEntry_idem s e
  have hfil : (sweepTables s l tbl).filter (fun p => decide (p.1 ∉ l)) =
      tbl.filter (fun p => decide (p.1 ∉ l)) := by
    rw [sweepTables_charact s l tbl hl, List.filter_append]
    have h1 : (l.reverse.map
        (fun q => (q, ((lookupA tbl q).getD []).map (sweepEntry s)))).filter
        (fun p => decide (p.1 ∉ l)) = [] := by
      rw [List.filter_eq_nil_iff]
      intro p hp
      rcases List.mem_map.mp hp with ⟨q, hq, rfl⟩
      simp [List.mem_reverse.mp hq]
    have h2 : (tbl.filter (fun p => decide (p.1 ∉ l))).filter
        (fun p => decide (p.1 ∉ l)) = tbl.filter (fun p => decide (p.1 ∉ l)) := by
      rw [List.filter_filter]
      apply List.filter_congr
      intro p hp
      by_cases h : p.1 ∈ l <;> simp [h]
    rw [h1, h2]
    rfl
  calc sweepTables s l (sweepTables s l tbl)
      = l.reverse.map
          (fun q => (q, ((lookupA (sweepTables s l tbl) q).getD []).map
            (sweepEntry s))) ++
          (sweepTables s l tbl).filter (fun p => decide (p.1 ∉ l)) :=
        sweepTables_charact s l _ hl
    _ = l.reverse.map
          (fun q => (q, ((lookupA tbl q).getD []).map (sweepEntry s))) ++
          tbl.filter (fun p => decide (p.1 ∉ l)) := by rw [hmap, hfil]
    _ = sweepTables s l tbl := (sweepTables_charact s l tbl hl).symm

theorem foldl_sweepQuery_tables (l : List Query) (db : RootDatabase)
    (s : SweepStrategy) :
    (l.foldl (fun db q => db.sweepQuery q s) db).tables =
      sweepTables s l db.tables := by
  induction l generalizing db with
  | nil => rfl
  | cons q l' ih =>
    rw [List.foldl_cons, ih]
    rfl

theorem collect_garbage_tables (db : RootDatabase) (now : Nat) :
    (db.collect_garbage now).tables =
      sweepTables sweepValuesAllRevisions collectGarbageSweptQueries
        db.tables := by
  simp only [RootDatabase.collect_garbage]
  rw [if_neg (by simp [wasmFeature])]
  rw [foldl_sweepQuery_tables]

/-! ### Profiling-report characterization -/

theorem keysNodup_sweepStep (s : SweepStrategy)
    (tbl : List (Query × List MemoEntry)) (q : Query) (h : keysNodup tbl) :
    keysNodup (sweepStep s tbl q) :=
  keysNodup_setA tbl q _ h

theorem sumTables_sweepStep (tbl : List (Query × List MemoEntry)) (q : Query)
    (s : SweepStrategy) :
    sumTables (sweepStep s tbl q) =
      tableBytes (((lookupA tbl q).getD []).map (sweepEntry s)) +
        sumTables (tbl.filter (fun p => decide (p.1 ≠ q))) := by
  rw [sweepStep, setA, sumTables_cons]

theorem reportSpec_congr (t1 t2 : List (Query × List MemoEntry))
    (qs : List Query) (h : ∀ q ∈ qs, lookupA t1 q = lookupA t2 q) :
    reportSpec t1 qs = reportSpec t2 qs := by
  induction qs with
  | nil => rfl
  | cons q qs' ih =>
    simp only [reportSpec]
    rw [h q (List.mem_cons_self q qs'),
      ih (fun q' hq' => h q' (List.mem_cons_of_mem q hq'))]

theorem perQueryStep_snd (db : RootDatabase)
    (acc : List ((Query × Bool) × Nat)) (q : Query)
    (hk : keysNodup db.tables) :
    (perQueryStep (db, acc) q).2 = acc ++
      [((q, false), tableValueBytes ((lookupA db.tables q).getD [])),
       ((q, true), tableDepsBytes ((lookupA db.tables q).getD []))] := by
  set t0 : List MemoEntry := (lookupA db.tables q).getD [] with ht0
  set R : Nat := sumTables (db.tables.filter (fun p => decide (p.1 ≠ q)))
    with hR
  have hsplit : sumTables db.tables = tableBytes t0 + R :=
    sumTables_split db.tables q hk
  have h1 : sumTables (sweepStep sweepValuesAllRevisions db.tables q) =
      tableBytes (t0.map (sweepEntry sweepValuesAllRevisions)) + R :=
    sumTables_sweepStep db.tables q sweepValuesAllRevisions
  have hbv : sumTables db.tables -
      sumTables (sweepStep sweepValuesAllRevisions db.tables q) =
      tableValueBytes t0 := by
    rw [hsplit, h1, tableBytes_sweep_values, tableBytes_eq]
    omega
  -- the second sweep operates on the values-swept tables
  set tbl1 : List (Query × List MemoEntry) :=
    sweepStep sweepValuesAllRevisions db.tables q with htbl1
  have hk1 : keysNodup tbl1 :=
    keysNodup_sweepStep sweepValuesAllRevisions db.tables q hk
  have hlook1 : lookupA tbl1 q =
      some (t0.map (sweepEntry sweepValuesAllRevisions)) := by
    rw [htbl1, sweepStep]
    exact lookupA_setA_self _ _ _
  set R1 : Nat := sumTables (tbl1.filter (fun p => decide (p.1 ≠ q)))
    with hR1
  have hsplit1 : sumTables tbl1 =
      tableBytes (t0.map (sweepEntry sweepValuesAllRevisions)) + R1 := by
    have := sumTables_split tbl1 q hk1
    rwa [hlook1, Option.getD_some] at this
  have h2 : sumTables
      (sweepStep sweepValuesAllRevisions.discard_everything tbl1 q) =
      tableBytes ((t0.map (sweepEntry sweepValuesAllRevisions)).map
        (sweepEntry sweepValuesAllRevisions.discard_everything)) + R1 := by
    have := sumTables_sweepStep tbl1 q
      sweepValuesAllRevisions.discard_everything
    rwa [hlook1, Option.getD_some] at this
  have hbd : sumTables tbl1 - sumTables
      (sweepStep sweepValuesAllRevisions.discard_everything tbl1 q) =
      tableDepsBytes t0 := by
    rw [hsplit1, h2, tableBytes_sweep_everything, tableBytes_sweep_values]
    omega
  have hbv' : memoryAllocated db -
      memoryAllocated (db.sweepQuery q sweepValuesAllRevisions) =
      tableValueBytes t0 := hbv
  have hbd' : memoryAllocated (db.sweepQuery q sweepValuesAllRevisions) -
      memoryAllocated ((db.sweepQuery q sweepValuesAllRevisions).sweepQuery q
        sweepValuesAllRevisions.discard_everything) = tableDepsBytes t0 := hbd
  show acc ++ [((q, false), memoryAllocated db - memoryAllocated
      (db.sweepQuery q sweepValuesAllRevisions))] ++
      [((q, true), memoryAllocated (db.sweepQuery q sweepValuesAllRevisions) -
        memoryAllocated ((db.sweepQuery q sweepValuesAllRevisions).sweepQuery q
          sweepValuesAllRevisions.discard_everything))] = _
  rw [hbv', hbd', List.append_assoc]
  rfl

theorem perQuery_foldl_charact (qs : List Query) (db : RootDatabase)
    (acc : List ((Query × Bool) × Nat)) (hk : keysNodup db.tables)
    (hn : qs.Nodup) :
    (qs.foldl perQueryStep (db, acc)).2 = acc ++ reportSpec db.tables qs := by
  induction qs generalizing db acc with
  | nil => simp [reportSpec]
  | cons q qs' ih =>
    have hq : q ∉ qs' := (List.nodup_cons.mp hn).1
    have hn' : qs'.Nodup := (List.nodup_cons.mp hn).2
    rw [List.foldl_cons]
    have hfst : (perQueryStep (db, acc) q).1 =
        (db.sweepQuery q sweepValuesAllRevisions).sweepQuery q
          sweepValuesAllRevisions.discard_everything := rfl
    have hk2 : keysNodup ((db.sweepQuery q sweepValuesAllRevisions).sweepQuery
        q sweepValuesAllRevisions.discard_everything).tables :=
      keysNodup_sweepStep _ _ _ (keysNodup_sweepStep _ _ _ hk)
    have hstep : perQueryStep (db, acc) q =
        ((db.sweepQuery q sweepValuesAllRevisions).sweepQuery q
          sweepValuesAllRevisions.discard_everything,
         acc ++ [((q, false), tableValueBytes ((lookupA db.tables q).getD [])),
                 ((q, true), tableDepsBytes ((lookupA db.tables q).getD []))]) := by
      have := perQueryStep_snd db acc q hk
      exact Prod.ext hfst this
    rw [hstep, ih _ _ hk2 hn']
    have hlook : ∀ q' ∈ qs',
        lookupA ((db.sweepQuery q sweepValuesAllRevisions).sweepQuery q
          sweepValuesAllRevisions.discard_everything).tables q' =
        lookupA db.tables q' := by
      intro q' hq'
      have hne : q' ≠ q := fun hEq => hq (hEq ▸ hq')
      show lookupA (sweepStep _ (sweepStep _ db.tables q) q) q' = _
      rw [sweepStep, lookupA_setA_ne _ _ _ _ hne, sweepStep,
        lookupA_setA_ne _ _ _ _ hne]
    rw [reportSpec_congr _ db.tables qs' hlook]
    simp [reportSpec, List.append_assoc]

theorem per_query_memory_usage_def (db : RootDatabase) :
    db.per_query_memory_usage =
      ((perQuerySweptQueries.foldl perQueryStep (db, [])).1,
       List.insertionSort byBytesDesc
         (perQuerySweptQueries.foldl perQueryStep (db, [])).2) := rfl

set_option maxRecDepth 8192 in
theorem per_query_report (db : RootDatabase) (hk : keysNodup db.tables) :
    (db.per_query_memory_usage).2 =
      List.insertionSort byBytesDesc
        (reportSpec db.tables perQuerySweptQueries) := by
  have h := perQuery_foldl_charact perQuerySweptQueries db [] hk (by decide)
  rw [per_query_memory_usage_def]
  dsimp only
  rw [h, List.nil_append]

theorem reportSpec_mem_false (tbl : List (Query × List MemoEntry))
    (qs : List Query) (q : Query) (bv : Nat)
    (h : ((q, false), bv) ∈ reportSpec tbl qs) :
    bv = tableValueBytes ((lookupA tbl q).getD []) := by
  induction qs with
  | nil => cases h
  | cons q' qs' ih =>
    simp only [reportSpec, List.mem_cons] at h
    rcases h with h | h | h
    · rw [Prod.mk.injEq, Prod.mk.injEq] at h
      obtain ⟨⟨hq, _⟩, hb⟩ := h
      subst hq; exact hb
    · rw [Prod.mk.injEq, Prod.mk.injEq] at h
      obtain ⟨⟨_, hbool⟩, _⟩ := h
      simp at hbool
    · exact ih h

theorem reportSpec_mem_true (tbl : List (Query × List MemoEntry))
    (qs : List Query) (q : Query) (bd : Nat)
    (h : ((q, true), bd) ∈ reportSpec tbl qs) :
    bd = tableDepsBytes ((lookupA tbl q).getD []) := by
  induction qs with
  | nil => cases h
  | cons q' qs' ih =>
    simp only [reportSpec, List.mem_cons] at h
    rcases h with h | h | h
    · rw [Prod.mk.injEq, Prod.mk.injEq] at h
      obtain ⟨⟨_, hbool⟩, _⟩ := h
      simp at hbool
    · rw [Prod.mk.injEq, Prod.mk.injEq] at h
      obtain ⟨⟨hq, _⟩, hb⟩ := h
      subst hq; exact hb
    · exact ih h

theorem reportSpec_mem_of_mem (tbl : List (Query × List MemoEntry))
    (qs : List Query) (q : Query) (hq : q ∈ qs) :
    ((q, false), tableValueBytes ((lookupA tbl q).getD [])) ∈
      reportSpec tbl qs ∧
    ((q, true), tableDepsBytes ((lookupA tbl q).getD [])) ∈
      reportSpec tbl qs := by
  induction qs with
  | nil => cases hq
  | cons q' qs' ih =>
    simp only [reportSpec, List.mem_cons]
    rcases List.mem_cons.mp hq with rfl | h
    · exact ⟨Or.inl rfl, Or.inr (Or.inl rfl)⟩
    · obtain ⟨h1, h2⟩ := ih h
      exact ⟨Or.inr (Or.inr h1), Or.inr (Or.inr h2)⟩

/-! ### Write-log extension machinery -/

theorem ExtBy.refl (P : WriteEvent → Prop) (db : RootDatabase) :
    ExtBy P db db :=
  ⟨[], by simp, fun e he => absurd he (List.not_mem_nil e)⟩

theorem ExtBy.trans {P : WriteEvent → Prop} {db1 db2 db3 : RootDatabase}
    (h1 : ExtBy P db1 db2) (h2 : ExtBy P db2 db3) : ExtBy P db1 db3 := by
  obtain ⟨E1, he1, hp1⟩ := h1
  obtain ⟨E2, he2, hp2⟩ := h2
  refine ⟨E1 ++ E2, by rw [he2, he1, List.append_assoc], ?_⟩
  intro e he
  rcases List.mem_append.mp he with h | h
  · exact hp1 e h
  · exact hp2 e h

theorem ExtBy.mem {P : WriteEvent → Prop} {db db' : RootDatabase}
    (h : ExtBy P db db') {e : WriteEvent} (he : e ∈ db.events) :
    e ∈ db'.events := by
  obtain ⟨E, hE, _⟩ := h
  rw [hE]
  exact List.mem_append_left E he

theorem ExtBy.mono {P Q : WriteEvent → Prop} {db db' : RootDatabase}
    (hPQ : ∀ e, P e → Q e) (h : ExtBy P db db') : ExtBy Q db db' := by
  obtain ⟨E, hE, hp⟩ := h
  exact ⟨E, hE, fun e he => hPQ e (hp e he)⟩

theorem extBy_synthetic_write (db : RootDatabase) (d : Durability) :
    ExtBy (fun e => e = WriteEvent.synthetic d) db (db.synthetic_write d) :=
  ⟨[WriteEvent.synthetic d], rfl, by simp⟩

theorem extBy_set_file_source_root (db : RootDatabase) (f : FileId)
    (r : SourceRootId) (d : Durability) :
    ExtBy (fun e => e = WriteEvent.fileSourceRoot f r d) db
      (db.set_file_source_root_with_durability f r d) :=
  ⟨[WriteEvent.fileSourceRoot f r d], rfl, by simp⟩

theorem extBy_set_source_root (db : RootDatabase) (r : SourceRootId)
    (root : SourceRoot) (d : Durability) :
    ExtBy (fun e => e = WriteEvent.sourceRoot r root d) db
      (db.set_source_root_with_durability r root d) :=
  ⟨[WriteEvent.sourceRoot r root d], rfl, by simp⟩

theorem extBy_set_local_roots (db : RootDatabase) (roots : List SourceRootId)
    (d : Durability) :
    ExtBy (fun e => e = WriteEvent.localRoots roots d) db
      (db.set_local_roots_with_durability roots d) :=
  ⟨[WriteEvent.localRoots roots d], rfl, by simp⟩

theorem extBy_set_library_roots (db : RootDatabase)
    (roots : List SourceRootId) (d : Durability) :
    ExtBy (fun e => e = WriteEvent.libraryRoots roots d) db
      (db.set_library_roots_with_durability roots d) :=
  ⟨[WriteEvent.libraryRoots roots d], rfl, by simp⟩

theorem extBy_set_file_text (db : RootDatabase) (f : FileId) (t : String)
    (d : Durability) :
    ExtBy (fun e => e = WriteEvent.fileText f t d) db
      (db.set_file_text_with_durability f t d) :=
  ⟨[WriteEvent.fileText f t d], rfl, by simp⟩

theorem extBy_set_crate_graph (db : RootDatabase) (g : CrateGraph)
    (d : Durability) :
    ExtBy (fun e => e = WriteEvent.crateGraph g d) db
      (db.set_crate_graph_with_durability g d) :=
  ⟨[WriteEvent.crateGraph g d], rfl, by simp⟩

/-! ### The per-root file loop -/

theorem filesFold_fields (files : List FileId) (db : RootDatabase)
    (rid : SourceRootId) (d : Durability) :
    (files.foldl
      (fun db f => db.set_file_source_root_with_durability f rid d)
      db).source_roots = db.source_roots ∧
    (files.foldl
      (fun db f => db.set_file_source_root_with_durability f rid d)
      db).file_text = db.file_text ∧
    (files.foldl
      (fun db f => db.set_file_source_root_with_durability f rid d)
      db).local_roots = db.local_roots ∧
    (files.foldl
      (fun db f => db.set_file_source_root_with_durability f rid d)
      db).library_roots = db.library_roots ∧
    (files.foldl
      (fun db f => db.set_file_source_root_with_durability f rid d)
      db).crate_graph = db.crate_graph ∧
    (files.foldl
      (fun db f => db.set_file_source_root_with_durability f rid d)
      db).tables = db.tables := by
  induction files generalizing db with
  | nil => exact ⟨rfl, rfl, rfl, rfl, rfl, rfl⟩
  | cons f fs ih =>
    rw [List.foldl_cons]
    exact ih (db.set_file_source_root_with_durability f rid d)

theorem filesFold_revision (files : List FileId) (db : RootDatabase)
    (rid : SourceRootId) (d : Durability) :
    db.revision ≤ (files.foldl
      (fun db f => db.set_file_source_root_with_durability f rid d)
      db).revision := by
  induction files generalizing db with
  | nil => exact Nat.le_refl _
  | cons f fs ih =>
    rw [List.foldl_cons]
    exact Nat.le_trans (Nat.le_succ _)
      (ih (db.set_file_source_root_with_durability f rid d))

theorem filesFold_file_source_root (files : List FileId) (db : RootDatabase)
    (rid : SourceRootId) (d : Durability) (g : FileId) :
    lookupA (files.foldl
      (fun db f => db.set_file_source_root_with_durability f rid d)
      db).file_source_root g =
      if g ∈ files then some rid else lookupA db.file_source_root g := by
  induction files generalizing db with
  | nil => simp
  | cons f fs ih =>
    rw [List.foldl_cons, ih]
    by_cases hg : g ∈ fs
    · simp [hg, List.mem_cons]
    · by_cases hgf : g = f
      · subst hgf
        have : lookupA (db.set_file_source_root_with_durability g rid
            d).file_source_root g = some rid := lookupA_setA_self _ _ _
        simp [hg, this]
      · have : lookupA (db.set_file_source_root_with_durability f rid
            d).file_source_root g = lookupA db.file_source_root g :=
          lookupA_setA_ne _ _ _ _ hgf
        have hgc : g ∉ f :: fs := by
          intro hc
          rcases List.mem_cons.mp hc with h | h
          · exact hgf h
          · exact hg h
        simp [hg, hgc, this]

theorem filesFold_file_source_root_isSome (files : List FileId)
    (db : RootDatabase) (rid : SourceRootId) (d : Durability) (g : FileId)
    (h : (lookupA db.file_source_root g).isSome) :
    (lookupA (files.foldl
      (fun db f => db.set_file_source_root_with_durability f rid d)
      db).file_source_root g).isSome := by
  rw [filesFold_file_source_root]
  by_cases hg : g ∈ files
  · simp [hg]
  · simp only [hg, if_false]
    exact h

theorem extBy_filesFold (files : List FileId) (db : RootDatabase)
    (rid : SourceRootId) (d : Durability) :
    ExtBy (fun e => eventRank e = 1) db
      (files.foldl
        (fun db f => db.set_file_source_root_with_durability f rid d) db) := by
  induction files generalizing db with
  | nil => exact ExtBy.refl _ _
  | cons f fs ih =>
    rw [List.foldl_cons]
    refine ExtBy.trans (ExtBy.mono ?_ (extBy_set_file_source_root db f rid d))
      (ih _)
    intro e he
    rw [he]
    rfl

theorem filesFold_events_mem (files : List FileId) (db : RootDatabase)
    (rid : SourceRootId) (d : Durability) (g : FileId) (hg : g ∈ files) :
    WriteEvent.fileSourceRoot g rid d ∈ (files.foldl
      (fun db f => db.set_file_source_root_with_durability f rid d)
      db).events := by
  induction files generalizing db with
  | nil => cases hg
  | cons f fs ih =>
    rw [List.foldl_cons]
    rcases List.mem_cons.mp hg with rfl | h
    · refine ExtBy.mem (extBy_filesFold fs _ rid d) ?_
      show WriteEvent.fileSourceRoot g rid d ∈
        db.events ++ [WriteEvent.fileSourceRoot g rid d]
      exact List.mem_append_right _ (List.mem_singleton.mpr rfl)
    · exact ih _ h

/-! ### The root-installation loop -/

theorem installRootsLoop_cons (db : RootDatabase) (idx : Nat)
    (root : SourceRoot) (rest : List SourceRoot) :
    installRootsLoop db idx (root :: rest) =
      ((installRootsLoop (installRootStep db idx root) (idx + 1) rest).1,
       (if root.is_library then
          (installRootsLoop (installRootStep db idx root) (idx + 1) rest).2.1
        else
          idx :: (installRootsLoop (installRootStep db idx root)
            (idx + 1) rest).2.1),
       (if root.is_library then
          idx :: (installRootsLoop (installRootStep db idx root)
            (idx + 1) rest).2.2
        else
          (installRootsLoop (installRootStep db idx root)
            (idx + 1) rest).2.2)) := by
  by_cases hlib : root.is_library <;>
    simp [installRootsLoop, installRootStep, hlib]

theorem extBy_installRootsLoop (roots : List SourceRoot) (db : RootDatabase)
    (idx : Nat) :
    ExtBy (fun e => eventRank e = 1) db
      (installRootsLoop db idx roots).1 := by
  induction roots generalizing db idx with
  | nil => exact ExtBy.refl _ _
  | cons root rest ih =>
    rw [installRootsLoop_cons]
    refine ExtBy.trans ?_ (ih (installRootStep db idx root) (idx + 1))
    refine ExtBy.trans (extBy_filesFold root.files db idx (durability root)) ?_
    refine ExtBy.mono ?_ (extBy_set_source_root _ idx root (durability root))
    intro e he
    rw [he]
    rfl

theorem installRootsLoop_fields (roots : List SourceRoot) (db : RootDatabase)
    (idx : Nat) :
    (installRootsLoop db idx roots).1.file_text = db.file_text ∧
    (installRootsLoop db idx roots).1.local_roots = db.local_roots ∧
    (installRootsLoop db idx roots).1.library_roots = db.library_roots ∧
    (installRootsLoop db idx roots).1.crate_graph = db.crate_graph ∧
    (installRootsLoop db idx roots).1.tables = db.tables := by
  induction roots generalizing db idx with
  | nil => exact ⟨rfl, rfl, rfl, rfl, rfl⟩
  | cons root rest ih =>
    rw [installRootsLoop_cons]
    obtain ⟨h1, h2, h3, h4, h5⟩ := ih (installRootStep db idx root) (idx + 1)
    obtain ⟨g1, g2, g3, g4, g5, g6⟩ :=
      filesFold_fields root.files db idx (durability root)
    refine ⟨?_, ?_, ?_, ?_, ?_⟩
    · rw [h1]; exact g2
    · rw [h2]; exact g3
    · rw [h3]; exact g4
    · rw [h4]; exact g5
    · rw [h5]; exact g6

theorem installRootsLoop_revision (roots : List SourceRoot)
    (db : RootDatabase) (idx : Nat) :
    db.revision ≤ (installRootsLoop db idx roots).1.revision := by
  induction roots generalizing db idx with
  | nil => exact Nat.le_refl _
  | cons root rest ih =>
    rw [installRootsLoop_cons]
    refine Nat.le_trans ?_ (ih (installRootStep db idx root) (idx + 1))
    refine Nat.le_trans (filesFold_revision root.files db idx (durability root))
      (Nat.le_succ _)

theorem installRootsLoop_cons_fst (db : RootDatabase) (idx : Nat)
    (root : SourceRoot) (rest : List SourceRoot) :
    (installRootsLoop db idx (root :: rest)).1 =
      (installRootsLoop (installRootStep db idx root) (idx + 1) rest).1 := by
  rw [installRootsLoop_cons]

theorem installRootStep_source_roots (db : RootDatabase) (idx : Nat)
    (root : SourceRoot) :
    (installRootStep db idx root).source_roots =
      setA db.source_roots idx root := by
  show setA (root.files.foldl
    (fun db file_id => db.set_file_source_root_with_durability file_id idx
      (durability root)) db).source_roots idx root = _
  rw [(filesFold_fields root.files db idx (durability root)).1]

theorem installRootStep_file_source_root (db : RootDatabase) (idx : Nat)
    (root : SourceRoot) (g : FileId) :
    lookupA (installRootStep db idx root).file_source_root g =
      if g ∈ root.files then some idx
      else lookupA db.file_source_root g := by
  show lookupA (root.files.foldl
    (fun db file_id => db.set_file_source_root_with_durability file_id idx
      (durability root)) db).file_source_root g = _
  exact filesFold_file_source_root _ _ _ _ _

theorem installRootsLoop_file_source_root (roots : List SourceRoot)
    (db : RootDatabase) (idx : Nat) (g : FileId) :
    lookupA (installRootsLoop db idx roots).1.file_source_root g =
      match assignedRootFrom idx roots g with
      | some i => some i
      | none => lookupA db.file_source_root g := by
  induction roots generalizing db idx with
  | nil => rfl
  | cons root rest ih =>
    rw [installRootsLoop_cons_fst,
      ih (installRootStep db idx root) (idx + 1)]
    simp only [assignedRootFrom]
    cases hres : assignedRootFrom (idx + 1) rest g with
    | some i => rfl
    | none =>
      rw [installRootStep_file_source_root]
      by_cases hf : g ∈ root.files <;> simp [hf]

theorem installRootsLoop_source_roots_lt (roots : List SourceRoot)
    (db : RootDatabase) (idx : Nat) (k : SourceRootId) (hk : k < idx) :
    lookupA (installRootsLoop db idx roots).1.source_roots k =
      lookupA db.source_roots k := by
  induction roots generalizing db idx with
  | nil => rfl
  | cons root rest ih =>
    rw [installRootsLoop_cons_fst,
      ih (installRootStep db idx root) (idx + 1) (Nat.lt_succ_of_lt hk),
      installRootStep_source_roots]
    exact lookupA_setA_ne _ _ _ _ (Nat.ne_of_lt hk)

theorem installRootsLoop_source_roots_get (roots : List SourceRoot)
    (db : RootDatabase) (idx : Nat) (j : Nat) (r : SourceRoot)
    (h : roots.get? j = some r) :
    lookupA (installRootsLoop db idx roots).1.source_roots (idx + j) =
      some r := by
  induction roots generalizing db idx j with
  | nil => cases h
  | cons root rest ih =>
    cases j with
    | zero =>
      have hr : root = r := by
        simp [List.get?] at h
        exact h
      subst hr
      rw [installRootsLoop_cons_fst,
        installRootsLoop_source_roots_lt rest _ (idx + 1) (idx + 0)
          (Nat.lt_succ_of_le (Nat.le_refl idx)),
        installRootStep_source_roots]
      show lookupA (setA db.source_roots idx root) (idx + 0) = some root
      have hz : idx + 0 = idx := rfl
      rw [hz]
      exact lookupA_setA_self _ _ _
    | succ j' =>
      have h' : rest.get? j' = some r := h
      have hj : idx + (j' + 1) = (idx + 1) + j' := by omega
      rw [installRootsLoop_cons_fst, hj]
      exact ih (installRootStep db idx root) (idx + 1) j' h'

theorem extBy_installRootStep (db : RootDatabase) (idx : Nat)
    (root : SourceRoot) :
    ExtBy (fun e => eventRank e = 1) db (installRootStep db idx root) := by
  refine ExtBy.trans (extBy_filesFold root.files db idx (durability root)) ?_
  refine ExtBy.mono ?_ (extBy_set_source_root _ idx root (durability root))
  intro e he
  rw [he]
  rfl

theorem installRootsLoop_events_sourceRoot (roots : List SourceRoot)
    (db : RootDatabase) (idx : Nat) (j : Nat) (r : SourceRoot)
    (h : roots.get? j = some r) :
    WriteEvent.sourceRoot (idx + j) r (durability r) ∈
      (installRootsLoop db idx roots).1.events := by
  induction roots generalizing db idx j with
  | nil => cases h
  | cons root rest ih =>
    rw [installRootsLoop_cons_fst]
    cases j with
    | zero =>
      have hr : root = r := by
        simp [List.get?] at h
        exact h
      subst hr
      refine ExtBy.mem (extBy_installRootsLoop rest _ (idx + 1)) ?_
      show WriteEvent.sourceRoot (idx + 0) root (durability root) ∈
        (root.files.foldl (fun db file_id =>
          db.set_file_source_root_with_durability file_id idx
            (durability root)) db).events ++
          [WriteEvent.sourceRoot idx root (durability root)]
      exact List.mem_append_right _ (List.mem_singleton.mpr rfl)
    | succ j' =>
      have h' : rest.get? j' = some r := h
      have hj : idx + (j' + 1) = (idx + 1) + j' := by omega
      rw [hj]
      exact ih (installRootStep db idx root) (idx + 1) j' h'

theorem installRootsLoop_events_fileSourceRoot (roots : List SourceRoot)
    (db : RootDatabase) (idx : Nat) (j : Nat) (r : SourceRoot) (f : FileId)
    (h : roots.get? j = some r) (hf : f ∈ r.files) :
    WriteEvent.fileSourceRoot f (idx + j) (durability r) ∈
      (installRootsLoop db idx roots).1.events := by
  induction roots generalizing db idx j with
  | nil => cases h
  | cons root rest ih =>
    rw [installRootsLoop_cons_fst]
    cases j with
    | zero =>
      have hr : root = r := by
        simp [List.get?] at h
        exact h
      subst hr
      refine ExtBy.mem (extBy_installRootsLoop rest _ (idx + 1)) ?_
      refine ExtBy.mem
        (extBy_set_source_root _ idx root (durability root)) ?_
      show WriteEvent.fileSourceRoot f (idx + 0) (durability root) ∈
        (root.files.foldl (fun db file_id =>
          db.set_file_source_root_with_durability file_id idx
            (durability root)) db).events
      exact filesFold_events_mem root.files db idx (durability root) f hf
    | succ j' =>
      have h' : rest.get? j' = some r := h
      have hj : idx + (j' + 1) = (idx + 1) + j' := by omega
      rw [hj]
      exact ih (installRootStep db idx root) (idx + 1) j' h'

theorem installRootsLoop_cons_locals (db : RootDatabase) (idx : Nat)
    (root : SourceRoot) (rest : List SourceRoot) :
    (installRootsLoop db idx (root :: rest)).2.1 =
      if root.is_library then
        (installRootsLoop (installRootStep db idx root) (idx + 1) rest).2.1
      else
        idx :: (installRootsLoop (installRootStep db idx root)
          (idx + 1) rest).2.1 := by
  rw [installRootsLoop_cons]

theorem installRootsLoop_cons_libs (db : RootDatabase) (idx : Nat)
    (root : SourceRoot) (rest : List SourceRoot) :
    (installRootsLoop db idx (root :: rest)).2.2 =
      if root.is_library then
        idx :: (installRootsLoop (installRootStep db idx root)
          (idx + 1) rest).2.2
      else
        (installRootsLoop (installRootStep db idx root)
          (idx + 1) rest).2.2 := by
  rw [installRootsLoop_cons]

theorem installRootsLoop_locals_mem (roots : List SourceRoot)
    (db : RootDatabase) (idx : Nat) (j : Nat) :
    j ∈ (installRootsLoop db idx roots).2.1 ↔
      ∃ k r, roots.get? k = some r ∧ r.is_library = false ∧ j = idx + k := by
  induction roots generalizing db idx with
  | nil =>
    constructor
    · intro h
      cases h
    · rintro ⟨k, r, hk, -, -⟩
      cases hk
  | cons root rest ih =>
    rw [installRootsLoop_cons_locals]
    by_cases hlib : root.is_library
    · rw [if_pos hlib, ih (installRootStep db idx root) (idx + 1)]
      constructor
      · rintro ⟨k, r, h1, h2, h3⟩
        exact ⟨k + 1, r, h1, h2, by omega⟩
      · rintro ⟨k, r, h1, h2, h3⟩
        cases k with
        | zero =>
          have : root = r := by
            simp [List.get?] at h1
            exact h1
          rw [← this] at h2
          rw [hlib] at h2
          cases h2
        | succ k' =>
          exact ⟨k', r, h1, h2, by omega⟩
    · rw [if_neg hlib, List.mem_cons,
        ih (installRootStep db idx root) (idx + 1)]
      constructor
      · rintro (rfl | ⟨k, r, h1, h2, h3⟩)
        · exact ⟨0, root, rfl, Bool.eq_false_iff.mpr hlib, by omega⟩
        · exact ⟨k + 1, r, h1, h2, by omega⟩
      · rintro ⟨k, r, h1, h2, h3⟩
        cases k with
        | zero =>
          left
          omega
        | succ k' =>
          right
          exact ⟨k', r, h1, h2, by omega⟩

theorem installRootsLoop_libs_mem (roots : List SourceRoot)
    (db : RootDatabase) (idx : Nat) (j : Nat) :
    j ∈ (installRootsLoop db idx roots).2.2 ↔
      ∃ k r, roots.get? k = some r ∧ r.is_library = true ∧ j = idx + k := by
  induction roots generalizing db idx with
  | nil =>
    constructor
    · intro h
      cases h
    · rintro ⟨k, r, hk, -, -⟩
      cases hk
  | cons root rest ih =>
    rw [installRootsLoop_cons_libs]
    by_cases hlib : root.is_library
    · rw [if_pos hlib, List.mem_cons,
        ih (installRootStep db idx root) (idx + 1)]
      constructor
      · rintro (rfl | ⟨k, r, h1, h2, h3⟩)
        · exact ⟨0, root, rfl, hlib, by omega⟩
        · exact ⟨k + 1, r, h1, h2, by omega⟩
      · rintro ⟨k, r, h1, h2, h3⟩
        cases k with
        | zero =>
          left
          omega
        | succ k' =>
          right
          exact ⟨k', r, h1, h2, by omega⟩
    · rw [if_neg hlib, ih (installRootStep db idx root) (idx + 1)]
      constructor
      · rintro ⟨k, r, h1, h2, h3⟩
        exact ⟨k + 1, r, h1, h2, by omega⟩
      · rintro ⟨k, r, h1, h2, h3⟩
        cases k with
        | zero =>
          have : root = r := by
            simp [List.get?] at h1
            exact h1
          rw [← this] at h2
          rw [h2] at hlib
          cases hlib rfl
        | succ k' =>
          exact ⟨k', r, h1, h2, by omega⟩

/-! ### The applyRoots wrapper -/

theorem applyRoots_file_source_root (db : RootDatabase)
    (roots : List SourceRoot) :
    (db.applyRoots roots).file_source_root =
      (installRootsLoop db 0 roots).1.file_source_root := rfl

theorem applyRoots_source_roots (db : RootDatabase)
    (roots : List SourceRoot) :
    (db.applyRoots roots).source_roots =
      (installRootsLoop db 0 roots).1.source_roots := rfl

theorem applyRoots_file_text (db : RootDatabase) (roots : List SourceRoot) :
    (db.applyRoots roots).file_text =
      (installRootsLoop db 0 roots).1.file_text := rfl

theorem applyRoots_local_roots (db : RootDatabase) (roots : List SourceRoot) :
    (db.applyRoots roots).local_roots = (installRootsLoop db 0 roots).2.1 :=
  rfl

theorem applyRoots_library_roots (db : RootDatabase)
    (roots : List SourceRoot) :
    (db.applyRoots roots).library_roots = (installRootsLoop db 0 roots).2.2 :=
  rfl

theorem applyRoots_events (db : RootDatabase) (roots : List SourceRoot) :
    (db.applyRoots roots).events =
      (installRootsLoop db 0 roots).1.events ++
        [WriteEvent.localRoots (installRootsLoop db 0 roots).2.1
          Durability.high] ++
        [WriteEvent.libraryRoots (installRootsLoop db 0 roots).2.2
          Durability.high] := rfl

theorem extBy_applyRoots (db : RootDatabase) (roots : List SourceRoot) :
    ExtBy (fun e => eventRank e = 1) db (db.applyRoots roots) := by
  refine ExtBy.trans (extBy_installRootsLoop roots db 0) ?_
  refine ExtBy.trans (ExtBy.mono ?_ (extBy_set_local_roots
    (installRootsLoop db 0 roots).1 (installRootsLoop db 0 roots).2.1
    Durability.high)) ?_
  · intro e he
    rw [he]
    rfl
  · refine ExtBy.mono ?_ (extBy_set_library_roots _
      (installRootsLoop db 0 roots).2.2 Durability.high)
    intro e he
    rw [he]
    rfl

theorem applyRoots_revision (db : RootDatabase) (roots : List SourceRoot) :
    db.revision ≤ (db.applyRoots roots).revision := by
  refine Nat.le_trans (installRootsLoop_revision roots db 0) ?_
  show (installRootsLoop db 0 roots).1.revision ≤
    (installRootsLoop db 0 roots).1.revision + 1 + 1
  omega

/-! ### The files-changed loop -/

theorem applyOneFileChange_some (db : RootDatabase) (f : FileId)
    (t : Option String) (db1 : RootDatabase)
    (h : db.applyOneFileChange f t = some db1) :
    ∃ i root, lookupA db.file_source_root f = some i ∧
      lookupA db.source_roots i = some root ∧
      db1 = db.set_file_text_with_durability f (t.getD "")
        (durability root) := by
  unfold RootDatabase.applyOneFileChange at h
  cases h1 : lookupA db.file_source_root f with
  | none =>
    rw [h1] at h
    dsimp only at h
    exact Option.noConfusion h
  | some i =>
    rw [h1] at h
    dsimp only at h
    cases h2 : lookupA db.source_roots i with
    | none =>
      rw [h2] at h
      dsimp only at h
      exact Option.noConfusion h
    | some root =>
      rw [h2] at h
      dsimp only at h
      refine ⟨i, root, rfl, h2, ?_⟩
      injection h with h
      exact h.symm

theorem set_file_text_fields (db : RootDatabase) (f : FileId) (t : String)
    (d : Durability) :
    (db.set_file_text_with_durability f t d).file_source_root =
      db.file_source_root ∧
    (db.set_file_text_with_durability f t d).source_roots = db.source_roots ∧
    (db.set_file_text_with_durability f t d).local_roots = db.local_roots ∧
    (db.set_file_text_with_durability f t d).library_roots =
      db.library_roots ∧
    (db.set_file_text_with_durability f t d).crate_graph = db.crate_graph ∧
    (db.set_file_text_with_durability f t d).tables = db.tables :=
  ⟨rfl, rfl, rfl, rfl, rfl, rfl⟩

theorem applyFilesChanged_fields (fs : List (FileId × Option String))
    (db db' : RootDatabase) (h : applyFilesChanged db fs = some db') :
    db'.file_source_root = db.file_source_root ∧
    db'.source_roots = db.source_roots ∧
    db'.local_roots = db.local_roots ∧
    db'.library_roots = db.library_roots ∧
    db'.crate_graph = db.crate_graph ∧
    db'.tables = db.tables := by
  induction fs generalizing db with
  | nil =>
    have hdb : db = db' := by
      injection h
    subst hdb
    exact ⟨rfl, rfl, rfl, rfl, rfl, rfl⟩
  | cons p rest ih =>
    obtain ⟨f, t⟩ := p
    have h' : (match db.applyOneFileChange f t with
        | none => none
        | some db => applyFilesChanged db rest) = some db' := h
    cases hstep : db.applyOneFileChange f t with
    | none =>
      rw [hstep] at h'
      cases h'
    | some db1 =>
      rw [hstep] at h'
      obtain ⟨i, root, -, -, hdb1⟩ := applyOneFileChange_some db f t db1 hstep
      subst hdb1
      obtain ⟨g1, g2, g3, g4, g5, g6⟩ := ih _ h'
      obtain ⟨k1, k2, k3, k4, k5, k6⟩ :=
        set_file_text_fields db f (t.getD "") (durability root)
      exact ⟨g1.trans k1, g2.trans k2, g3.trans k3, g4.trans k4,
        g5.trans k5, g6.trans k6⟩

theorem applyFilesChanged_revision (fs : List (FileId × Option String))
    (db db' : RootDatabase) (h : applyFilesChanged db fs = some db') :
    db.revision ≤ db'.revision := by
  induction fs generalizing db with
  | nil =>
    have hdb : db = db' := by
      injection h
    subst hdb
    exact Nat.le_refl _
  | cons p rest ih =>
    obtain ⟨f, t⟩ := p
    have h' : (match db.applyOneFileChange f t with
        | none => none
        | some db => applyFilesChanged db rest) = some db' := h
    cases hstep : db.applyOneFileChange f t with
    | none =>
      rw [hstep] at h'
      cases h'
    | some db1 =>
      rw [hstep] at h'
      obtain ⟨i, root, -, -, hdb1⟩ := applyOneFileChange_some db f t db1 hstep
      subst hdb1
      exact Nat.le_trans (Nat.le_succ _) (ih _ h')

theorem extBy_applyFilesChanged (fs : List (FileId × Option String))
    (db db' : RootDatabase) (h : applyFilesChanged db fs = some db') :
    ExtBy (fun e => eventRank e = 2) db db' := by
  induction fs generalizing db with
  | nil =>
    have hdb : db = db' := by
      injection h
    subst hdb
    exact ExtBy.refl _ _
  | cons p rest ih =>
    obtain ⟨f, t⟩ := p
    have h' : (match db.applyOneFileChange f t with
        | none => none
        | some db => applyFilesChanged db rest) = some db' := h
    cases hstep : db.applyOneFileChange f t with
    | none =>
      rw [hstep] at h'
      cases h'
    | some db1 =>
      rw [hstep] at h'
      obtain ⟨i, root, -, -, hdb1⟩ := applyOneFileChange_some db f t db1 hstep
      refine ExtBy.trans ?_ (ih _ h')
      subst hdb1
      refine ExtBy.mono ?_ (extBy_set_file_text db f (t.getD "")
        (durability root))
      intro e he
      rw [he]
      rfl

theorem applyFilesChanged_file_text_isSome
    (fs : List (FileId × Option String)) (db db' : RootDatabase)
    (h : applyFilesChanged db fs = some db') (g : FileId)
    (hg : (lookupA db.file_text g).isSome) :
    (lookupA db'.file_text g).isSome := by
  induction fs generalizing db with
  | nil =>
    have hdb : db = db' := by
      injection h
    subst hdb
    exact hg
  | cons p rest ih =>
    obtain ⟨f, t⟩ := p
    have h' : (match db.applyOneFileChange f t with
        | none => none
        | some db => applyFilesChanged db rest) = some db' := h
    cases hstep : db.applyOneFileChange f t with
    | none =>
      rw [hstep] at h'
      cases h'
    | some db1 =>
      rw [hstep] at h'
      obtain ⟨i, root, -, -, hdb1⟩ := applyOneFileChange_some db f t db1 hstep
      subst hdb1
      refine ih _ h' ?_
      show (lookupA (setA db.file_text f (t.getD "")) g).isSome
      exact lookupA_setA_isSome _ _ _ _ hg

theorem applyFilesChanged_events_mem (fs : List (FileId × Option String))
    (db db' : RootDatabase) (h : applyFilesChanged db fs = some db')
    (f : FileId) (t : Option String) (i : SourceRootId) (root : SourceRoot)
    (hmem : (f, t) ∈ fs)
    (h1 : lookupA db.file_source_root f = some i)
    (h2 : lookupA db.source_roots i = some root) :
    WriteEvent.fileText f (t.getD "") (durability root) ∈ db'.events := by
  induction fs generalizing db with
  | nil => cases hmem
  | cons p rest ih =>
    obtain ⟨f', t'⟩ := p
    have h' : (match db.applyOneFileChange f' t' with
        | none => none
        | some db => applyFilesChanged db rest) = some db' := h
    cases hstep : db.applyOneFileChange f' t' with
    | none =>
      rw [hstep] at h'
      cases h'
    | some db1 =>
      rw [hstep] at h'
      obtain ⟨i', root', k1, k2, hdb1⟩ :=
        applyOneFileChange_some db f' t' db1 hstep
      rcases List.mem_cons.mp hmem with heq | hrest
      · have hf : f = f' := congrArg Prod.fst heq
        have ht : t = t' := congrArg Prod.snd heq
        subst hf
        subst ht
        have hii : i' = i := by
          rw [k1] at h1
          exact Option.some.inj h1
        have hrr : root' = root := by
          rw [hii] at k2
          rw [k2] at h2
          exact Option.some.inj h2
        rw [hrr] at hdb1
        refine ExtBy.mem (extBy_applyFilesChanged rest db1 db' h') ?_
        rw [hdb1]
        show WriteEvent.fileText f (t.getD "") (durability root) ∈
          db.events ++ [WriteEvent.fileText f (t.getD "") (durability root)]
        exact List.mem_append_right _ (List.mem_singleton.mpr rfl)
      · subst hdb1
        refine ih _ h' hrest ?_ ?_
        · show lookupA db.file_source_root f = some i
          exact h1
        · show lookupA db.source_roots i = some root
          exact h2

/-! ### apply_change decomposition -/

theorem request_cancellation_def (db : RootDatabase) :
    db.request_cancellation =
      { db with revision := db.revision + 1,
                events := db.events ++ [WriteEvent.synthetic Durability.low] } :=
  rfl

theorem apply_change_some (db : RootDatabase) (c : AnalysisChange)
    (db' : RootDatabase) (h : db.apply_change c = some db') :
    ∃ db2, applyFilesChanged
        (match c.roots with
         | some roots => (db.request_cancellation).applyRoots roots
         | none => db.request_cancellation) c.files_changed = some db2 ∧
      db' = (match c.crate_graph with
         | some g => db2.set_crate_graph_with_durability g Durability.high
         | none => db2) := by
  simp only [RootDatabase.apply_change] at h
  cases hA : applyFilesChanged (match c.roots with
      | some roots => (db.request_cancellation).applyRoots roots
      | none => db.request_cancellation) c.files_changed with
  | none =>
    rw [hA] at h
    exact Option.noConfusion h
  | some db2 =>
    rw [hA] at h
    refine ⟨db2, rfl, ?_⟩
    injection h with h
    exact h.symm

theorem apply_change_revision (db : RootDatabase) (c : AnalysisChange)
    (db' : RootDatabase) (h : db.apply_change c = some db') :
    db.revision < db'.revision := by
  obtain ⟨db2, hA, hdb'⟩ := apply_change_some db c db' h
  have h2 := applyFilesChanged_revision _ _ _ hA
  have h1 : db.revision < (match c.roots with
      | some roots => (db.request_cancellation).applyRoots roots
      | none => db.request_cancellation).revision := by
    cases c.roots with
    | none =>
      dsimp only
      exact Nat.lt_succ_self _
    | some roots =>
      dsimp only
      exact Nat.lt_of_lt_of_le (Nat.lt_succ_self _)
        (applyRoots_revision db.request_cancellation roots)
  have h3 : db2.revision ≤ db'.revision := by
    rw [hdb']
    cases c.crate_graph with
    | none => exact Nat.le_refl _
    | some g => exact Nat.le_succ _
  omega

theorem apply_change_events (db : RootDatabase) (c : AnalysisChange)
    (db' : RootDatabase) (h : db.apply_change c = some db') :
    ∃ E1 E2 E3,
      db'.events = db.events ++ [WriteEvent.synthetic Durability.low] ++
        E1 ++ E2 ++ E3 ∧
      (∀ e ∈ E1, eventRank e = 1) ∧ (∀ e ∈ E2, eventRank e = 2) ∧
      (∀ e ∈ E3, eventRank e = 3) := by
  obtain ⟨db2, hA, hdb'⟩ := apply_change_some db c db' h
  have hR : ExtBy (fun e => eventRank e = 1) db.request_cancellation
      (match c.roots with
       | some roots => (db.request_cancellation).applyRoots roots
       | none => db.request_cancellation) := by
    cases c.roots with
    | none => exact ExtBy.refl _ _
    | some roots => exact extBy_applyRoots _ roots
  obtain ⟨E1, hE1, hP1⟩ := hR
  obtain ⟨E2, hE2, hP2⟩ := extBy_applyFilesChanged _ _ _ hA
  have hG : ∃ E3, db'.events = db2.events ++ E3 ∧
      ∀ e ∈ E3, eventRank e = 3 := by
    cases hg : c.crate_graph with
    | none =>
      rw [hg] at hdb'
      exact ⟨[], by simp [hdb'], by simp⟩
    | some g =>
      rw [hg] at hdb'
      refine ⟨[WriteEvent.crateGraph g Durability.high], ?_, ?_⟩
      · rw [hdb']
        rfl
      · intro e he
        rw [List.mem_singleton.mp he]
        rfl
  obtain ⟨E3, hE3, hP3⟩ := hG
  refine ⟨E1, E2, E3, ?_, hP1, hP2, hP3⟩
  rw [hE3, hE2, hE1, request_cancellation_def]

/-! ### Claims -/

/-- C8: running `collect_garbage` twice in succession with no intervening
computation reclaims zero additional bytes on the second run — the second
values-only, all-revisions sweep of every table discards nothing further; the
memo tables (and hence the allocated-bytes probe) are unchanged by the second
run. -/
theorem collect_garbage_idempotent (db : RootDatabase) (n1 n2 : Nat) :
    ((db.collect_garbage n1).collect_garbage n2).tables =
      (db.collect_garbage n1).tables ∧
    memoryAllocated ((db.collect_garbage n1).collect_garbage n2) =
      memoryAllocated (db.collect_garbage n1) := by
  have h : ((db.collect_garbage n1).collect_garbage n2).tables =
      (db.collect_garbage n1).tables := by
    rw [collect_garbage_tables, collect_garbage_tables]
    exact sweepTables_idem _ _ _ (by decide)
  exact ⟨h, congrArg sumTables h⟩

/-- C10: applying an empty change batch writes no input-store slot — the
source roots, file-root map, file texts, aggregate sets, crate graph and memo
tables are all untouched; the only effect is the cancellation synthetic write,
which advances the revision by one and logs a LOW synthetic event. -/
theorem apply_change_empty_batch (db : RootDatabase) :
    db.apply_change AnalysisChange.new = some db.request_cancellation ∧
    db.request_cancellation.file_source_root = db.file_source_root ∧
    db.request_cancellation.source_roots = db.source_roots ∧
    db.request_cancellation.file_text = db.file_text ∧
    db.request_cancellation.local_roots = db.local_roots ∧
    db.request_cancellation.library_roots = db.library_roots ∧
    db.request_cancellation.crate_graph = db.crate_graph ∧
    db.request_cancellation.tables = db.tables ∧
    db.request_cancellation.revision = db.revision + 1 ∧
    db.request_cancellation.events =
      db.events ++ [WriteEvent.synthetic Durability.low] :=
  ⟨rfl, rfl, rfl, rfl, rfl, rfl, rfl, rfl, rfl, rfl⟩

/-- C5: every successful `apply_change` or `request_cancellation` call
observes a strictly greater revision than the state it started from — even
for an empty batch — and `request_cancellation` is exactly a synthetic write
at LOW durability with no data payload change. -/
theorem revision_strictly_increases (db : RootDatabase) (op : Op)
    (db' : RootDatabase) (h : runOp db op = some db') :
    db.revision < db'.revision ∧
    db.request_cancellation =
      { db with revision := db.revision + 1,
                events := db.events ++
                  [WriteEvent.synthetic Durability.low] } := by
  refine ⟨?_, rfl⟩
  cases op with
  | applyChange c => exact apply_change_revision db c db' h
  | requestCancellation =>
    have hdb : db.request_cancellation = db' := by
      injection h
    rw [← hdb]
    exact Nat.lt_succ_self _

/-- Witness for C5 at a concrete input: cancelling on the fresh database
advances the revision. -/
theorem revision_strictly_increases_witness :
    runOp initDB Op.requestCancellation = some initDB.request_cancellation ∧
    initDB.revision < initDB.request_cancellation.revision :=
  ⟨rfl, (revision_strictly_increases initDB Op.requestCancellation
    initDB.request_cancellation rfl).1⟩

/-- C1 counterexample: with the cooldown expired (200 ms old check, called at
400 ms), `maybe_collect_garbage` does update `last_gc_check` but leaves every
memo table unchanged — no sweep happens and the reclaimed-bytes probe sees
nothing — refuting the claim that the post-cooldown call performs a sweep.
The 250 ms call (within the cooldown) is a complete no-op, as claimed. -/
theorem maybe_collect_garbage_counterexample :
    gcDB.maybe_collect_garbage 250 = gcDB ∧
    (gcDB.maybe_collect_garbage 400).last_gc_check = 400 ∧
    (gcDB.maybe_collect_garbage 400).tables = gcDB.tables ∧
    ¬ memoryAllocated (gcDB.maybe_collect_garbage 400) <
        memoryAllocated gcDB := by
  decide

/-- C1 as amended: `maybe_collect_garbage` never sweeps.  It preserves the
memo tables (and the allocated-bytes probe) unconditionally; within the
100 ms cooldown it is a complete no-op, and once the cooldown has elapsed its
only effect is to update `last_gc_check`. -/
theorem maybe_collect_garbage_no_sweep (db : RootDatabase) (now : Nat) :
    (db.maybe_collect_garbage now).tables = db.tables ∧
    memoryAllocated (db.maybe_collect_garbage now) = memoryAllocated db ∧
    (now - db.last_gc_check ≤ GC_COOLDOWN →
      db.maybe_collect_garbage now = db) ∧
    (GC_COOLDOWN < now - db.last_gc_check →
      db.maybe_collect_garbage now = { db with last_gc_check := now }) := by
  by_cases hc : now - db.last_gc_check > GC_COOLDOWN
  · have hre : db.maybe_collect_garbage now =
        { db with last_gc_check := now } := by
      unfold RootDatabase.maybe_collect_garbage
      rw [if_neg (by simp [wasmFeature]), if_pos hc]
    refine ⟨by rw [hre], by rw [hre]; rfl, ?_, fun _ => hre⟩
    intro hle
    exact absurd hc (Nat.not_lt_of_le hle)
  · have hre : db.maybe_collect_garbage now = db := by
      unfold RootDatabase.maybe_collect_garbage
      rw [if_neg (by simp [wasmFeature]), if_neg hc]
    refine ⟨by rw [hre], by rw [hre], fun _ => hre, ?_⟩
    intro hlt
    exact absurd hlt hc

/-- Witness for the amended C1 at a concrete input: at 400 ms, 300 ms past
the last check, the call updates `last_gc_check` and does nothing else. -/
theorem maybe_collect_garbage_no_sweep_witness :
    GC_COOLDOWN < 400 - gcDB.last_gc_check ∧
    gcDB.maybe_collect_garbage 400 = { gcDB with last_gc_check := 400 } :=
  ⟨by decide, (maybe_collect_garbage_no_sweep gcDB 400).2.2.2 (by decide)⟩

/-- C2 counterexample: the profiling pass sweeps `SourceRootCratesQuery`,
which `collect_garbage` does not sweep — the two table lists are not the same
set. -/
theorem per_query_tables_counterexample :
    Query.SourceRootCratesQuery ∈ perQuerySweptQueries ∧
    Query.SourceRootCratesQuery ∉ collectGarbageSweptQueries := by
  decide

/-- C2 as amended: the GC table list is a strict subset of the profiling
table list (every GC-swept table is profiled, not conversely); and for every
table in the profiling list the report holds one values-only entry — the
value bytes of the pre-sweep table — and one deps entry — the dependency
bytes discarded by the subsequent discard-everything sweep. -/
theorem per_query_tables_superset :
    collectGarbageSweptQueries ⊆ perQuerySweptQueries ∧
    ¬ perQuerySweptQueries ⊆ collectGarbageSweptQueries ∧
    ∀ db : RootDatabase, keysNodup db.tables →
      ∀ q ∈ perQuerySweptQueries,
        ((q, false), tableValueBytes ((lookupA db.tables q).getD [])) ∈
          (db.per_query_memory_usage).2 ∧
        ((q, true), tableDepsBytes ((lookupA db.tables q).getD [])) ∈
          (db.per_query_memory_usage).2 := by
  refine ⟨by decide, by decide, ?_⟩
  intro db hk q hq
  rw [per_query_report db hk]
  have hperm := List.perm_insertionSort byBytesDesc
    (reportSpec db.tables perQuerySweptQueries)
  obtain ⟨m1, m2⟩ := reportSpec_mem_of_mem db.tables perQuerySweptQueries q hq
  exact ⟨hperm.mem_iff.mpr m1, hperm.mem_iff.mpr m2⟩

/-- Witness for the amended C2 at a concrete input: the parse table of `pqDB`
gets a 2-byte values entry and a 1-byte deps entry in the report. -/
theorem per_query_tables_superset_witness :
    keysNodup pqDB.tables ∧ Query.ParseQuery ∈ perQuerySweptQueries ∧
    (((Query.ParseQuery, false),
        tableValueBytes ((lookupA pqDB.tables Query.ParseQuery).getD [])) ∈
      (pqDB.per_query_memory_usage).2 ∧
     ((Query.ParseQuery, true),
        tableDepsBytes ((lookupA pqDB.tables Query.ParseQuery).getD [])) ∈
      (pqDB.per_query_memory_usage).2) :=
  ⟨by decide, by decide,
   per_query_tables_superset.2.2 pqDB (by decide) Query.ParseQuery
     (by decide)⟩

set_option maxRecDepth 200000 in
set_option maxHeartbeats 2000000 in
/-- C9 counterexample: on a table holding a 2-byte value and a 1-byte
dependency record, the report's values-only entry records 2 bytes while its
deps entry records only 1 byte — the deps entry is not ≥ the values entry of
the same table, refuting the claimed inequality between the recorded
entries. -/
theorem per_query_deps_counterexample :
    ((Query.ParseQuery, false), 2) ∈ (pqDB.per_query_memory_usage).2 ∧
    ((Query.ParseQuery, true), 1) ∈ (pqDB.per_query_memory_usage).2 ∧
    ¬ (2 : Nat) ≤ 1 := by
  decide

/-- C9 as amended: the deps entry of a table records only the additional
dependency-edge bytes reclaimed after the values were already discarded; the
values entry and deps entry of a table sum to the table's full pre-sweep
bytes — what a discard-everything sweep on the pre-sweep state would have
reclaimed, hence at least the values entry — and the report is sorted in
descending order of reclaimed bytes. -/
theorem per_query_deps_and_sorted (db : RootDatabase)
    (hk : keysNodup db.tables) :
    (∀ q bv bd, ((q, false), bv) ∈ (db.per_query_memory_usage).2 →
      ((q, true), bd) ∈ (db.per_query_memory_usage).2 →
      bv = tableValueBytes ((lookupA db.tables q).getD []) ∧
      bd = tableDepsBytes ((lookupA db.tables q).getD []) ∧
      bv + bd = tableBytes ((lookupA db.tables q).getD []) ∧
      bv ≤ bv + bd) ∧
    List.Sorted byBytesDesc (db.per_query_memory_usage).2 := by
  constructor
  · intro q bv bd hv hd
    rw [per_query_report db hk] at hv hd
    have hperm := List.perm_insertionSort byBytesDesc
      (reportSpec db.tables perQuerySweptQueries)
    have hv' := reportSpec_mem_false db.tables perQuerySweptQueries q bv
      (hperm.mem_iff.mp hv)
    have hd' := reportSpec_mem_true db.tables perQuerySweptQueries q bd
      (hperm.mem_iff.mp hd)
    refine ⟨hv', hd', ?_, ?_⟩
    · rw [hv', hd', tableBytes_eq]
    · omega
  · rw [per_query_memory_usage_def]
    dsimp only
    exact List.sorted_insertionSort byBytesDesc _

set_option maxRecDepth 200000 in
set_option maxHeartbeats 2000000 in
/-- Witness for the amended C9 at a concrete input: the parse table of `pqDB`
yields a 2-byte values entry and a 1-byte deps entry, summing to the 3-byte
pre-sweep table. -/
theorem per_query_deps_and_sorted_witness :
    keysNodup pqDB.tables ∧
    ((2 : Nat) =
        tableValueBytes ((lookupA pqDB.tables Query.ParseQuery).getD []) ∧
      (1 : Nat) =
        tableDepsBytes ((lookupA pqDB.tables Query.ParseQuery).getD []) ∧
      2 + 1 = tableBytes ((lookupA pqDB.tables Query.ParseQuery).getD []) ∧
      (2 : Nat) ≤ 2 + 1) :=
  ⟨by decide, (per_query_deps_and_sorted pqDB (by decide)).1 Query.ParseQuery
    2 1 (by decide) (by decide)⟩

theorem apply_change_mem_events (db : RootDatabase) (c : AnalysisChange)
    (db' : RootDatabase) (roots : List SourceRoot)
    (h : db.apply_change c = some db') (hroots : c.roots = some roots)
    (e : WriteEvent)
    (he : e ∈ ((db.request_cancellation).applyRoots roots).events) :
    e ∈ db'.events := by
  obtain ⟨db2, hA, hdb'⟩ := apply_change_some db c db' h
  rw [hroots] at hA
  dsimp only at hA
  have h2 : e ∈ db2.events :=
    ExtBy.mem (extBy_applyFilesChanged _ _ _ hA) he
  cases hg : c.crate_graph with
  | none =>
    rw [hg] at hdb'
    dsimp only at hdb'
    rw [hdb']
    exact h2
  | some g =>
    rw [hg] at hdb'
    dsimp only at hdb'
    rw [hdb']
    exact ExtBy.mem (extBy_set_crate_graph db2 g Durability.high) h2

theorem apply_change_roots_state (db : RootDatabase) (c : AnalysisChange)
    (db' : RootDatabase) (roots : List SourceRoot)
    (h : db.apply_change c = some db') (hroots : c.roots = some roots) :
    db'.local_roots =
      (installRootsLoop db.request_cancellation 0 roots).2.1 ∧
    db'.library_roots =
      (installRootsLoop db.request_cancellation 0 roots).2.2 := by
  obtain ⟨db2, hA, hdb'⟩ := apply_change_some db c db' h
  rw [hroots] at hA
  dsimp only at hA
  obtain ⟨-, -, h3, h4, -, -⟩ := applyFilesChanged_fields _ _ _ hA
  have hl : db2.local_roots =
      (installRootsLoop db.request_cancellation 0 roots).2.1 := by
    rw [h3, applyRoots_local_roots]
  have hlib : db2.library_roots =
      (installRootsLoop db.request_cancellation 0 roots).2.2 := by
    rw [h4, applyRoots_library_roots]
  cases hg : c.crate_graph with
  | none =>
    rw [hg] at hdb'
    dsimp only at hdb'
    rw [hdb']
    exact ⟨hl, hlib⟩
  | some g =>
    rw [hg] at hdb'
    dsimp only at hdb'
    rw [hdb']
    exact ⟨hl, hlib⟩

theorem apply_change_fileText_mem (db : RootDatabase) (c : AnalysisChange)
    (db' : RootDatabase) (roots : List SourceRoot) (f : FileId)
    (t : Option String) (i : Nat) (r : SourceRoot)
    (h : db.apply_change c = some db') (hroots : c.roots = some roots)
    (hassign : assignedRoot roots f = some i) (hget : roots.get? i = some r)
    (hmem : (f, t) ∈ c.files_changed) :
    WriteEvent.fileText f (t.getD "") (durability r) ∈ db'.events := by
  obtain ⟨db2, hA, hdb'⟩ := apply_change_some db c db' h
  rw [hroots] at hA
  dsimp only at hA
  have h1 : lookupA
      ((db.request_cancellation).applyRoots roots).file_source_root f =
      some i := by
    rw [applyRoots_file_source_root, installRootsLoop_file_source_root]
    have hfrom : assignedRootFrom 0 roots f = some i := hassign
    rw [hfrom]
  have h2 : lookupA
      ((db.request_cancellation).applyRoots roots).source_roots i =
      some r := by
    rw [applyRoots_source_roots]
    have := installRootsLoop_source_roots_get roots db.request_cancellation
      0 i r hget
    rw [Nat.zero_add] at this
    exact this
  have hmem2 : WriteEvent.fileText f (t.getD "") (durability r) ∈
      db2.events :=
    applyFilesChanged_events_mem _ _ _ hA f t i r hmem h1 h2
  cases hg : c.crate_graph with
  | none =>
    rw [hg] at hdb'
    dsimp only at hdb'
    rw [hdb']
    exact hmem2
  | some g =>
    rw [hg] at hdb'
    dsimp only at hdb'
    rw [hdb']
    exact ExtBy.mem (extBy_set_crate_graph db2 g Durability.high) hmem2

/-- C3: a batch is applied in the fixed order — the cancellation synthetic
write first (even for an empty batch), then the root-replacement writes, then
the file-text writes, then the crate-graph write — and a file-text write in a
batch that also replaces roots resolves the file's root, and hence its
durability, from the newly installed roots. -/
theorem apply_change_order (db : RootDatabase) (c : AnalysisChange)
    (db' : RootDatabase) (h : db.apply_change c = some db') :
    (∃ E1 E2 E3,
      db'.events = db.events ++ [WriteEvent.synthetic Durability.low] ++
        E1 ++ E2 ++ E3 ∧
      (∀ e ∈ E1, eventRank e = 1) ∧ (∀ e ∈ E2, eventRank e = 2) ∧
      (∀ e ∈ E3, eventRank e = 3)) ∧
    (∀ roots f t i r, c.roots = some roots →
      assignedRoot roots f = some i → roots.get? i = some r →
      (f, t) ∈ c.files_changed →
      WriteEvent.fileText f (t.getD "") (durability r) ∈ db'.events) := by
  refine ⟨apply_change_events db c db' h, ?_⟩
  intro roots f t i r hroots hassign hget hmem
  exact apply_change_fileText_mem db c db' roots f t i r h hroots hassign
    hget hmem

/-- Witness for C3 at a concrete input: a batch installing one local root
holding file 5 and rewriting file 5's text. -/
theorem apply_change_order_witness :
    initDB.apply_change c3batch = some c3db' ∧
    ((∃ E1 E2 E3,
      c3db'.events = initDB.events ++
        [WriteEvent.synthetic Durability.low] ++ E1 ++ E2 ++ E3 ∧
      (∀ e ∈ E1, eventRank e = 1) ∧ (∀ e ∈ E2, eventRank e = 2) ∧
      (∀ e ∈ E3, eventRank e = 3)) ∧
    (∀ roots f t i r, c3batch.roots = some roots →
      assignedRoot roots f = some i → roots.get? i = some r →
      (f, t) ∈ c3batch.files_changed →
      WriteEvent.fileText f (t.getD "") (durability r) ∈ c3db'.events)) :=
  ⟨by decide, apply_change_order initDB c3batch c3db' (by decide)⟩

/-- C4: after a batch installs a root `r` with index `i`, every write it
caused for `r` happened at `r`'s durability — the file-to-root mapping writes
for `r`'s files, the write of `r` itself, and (for a file finally assigned to
`r`) the file-text write — and that durability is HIGH exactly when
`r.is_library` is true and LOW exactly when it is false. -/
theorem durability_classification (db : RootDatabase) (c : AnalysisChange)
    (db' : RootDatabase) (roots : List SourceRoot) (i : Nat) (r : SourceRoot)
    (f : FileId) (h : db.apply_change c = some db')
    (hroots : c.roots = some roots) (hget : roots.get? i = some r) :
    (f ∈ r.files →
      WriteEvent.fileSourceRoot f i (durability r) ∈ db'.events) ∧
    WriteEvent.sourceRoot i r (durability r) ∈ db'.events ∧
    (∀ t, assignedRoot roots f = some i → (f, t) ∈ c.files_changed →
      WriteEvent.fileText f (t.getD "") (durability r) ∈ db'.events) ∧
    (r.is_library = true → durability r = Durability.high) ∧
    (r.is_library = false → durability r = Durability.low) := by
  refine ⟨?_, ?_, ?_, ?_, ?_⟩
  · intro hf
    refine apply_change_mem_events db c db' roots h hroots _ ?_
    rw [applyRoots_events]
    refine List.mem_append_left _ (List.mem_append_left _ ?_)
    have := installRootsLoop_events_fileSourceRoot roots
      db.request_cancellation 0 i r f hget hf
    rw [Nat.zero_add] at this
    exact this
  · refine apply_change_mem_events db c db' roots h hroots _ ?_
    rw [applyRoots_events]
    refine List.mem_append_left _ (List.mem_append_left _ ?_)
    have := installRootsLoop_events_sourceRoot roots
      db.request_cancellation 0 i r hget
    rw [Nat.zero_add] at this
    exact this
  · intro t hassign hmem
    exact apply_change_fileText_mem db c db' roots f t i r h hroots hassign
      hget hmem
  · intro hlib
    simp [durability, hlib]
  · intro hlib
    simp [durability, hlib]

/-- Witness for C4 at a concrete input: a library root holding file 7; all
its writes happen at HIGH durability. -/
theorem durability_classification_witness :
    initDB.apply_change c4batch = some c4db' ∧
    c4batch.roots = some c4roots ∧
    c4roots.get? 0 = some ⟨true, [7]⟩ ∧
    (((7 : FileId) ∈ (SourceRoot.mk true [7]).files →
      WriteEvent.fileSourceRoot 7 0 (durability ⟨true, [7]⟩) ∈
        c4db'.events) ∧
    WriteEvent.sourceRoot 0 ⟨true, [7]⟩ (durability ⟨true, [7]⟩) ∈
      c4db'.events ∧
    (∀ t, assignedRoot c4roots 7 = some 0 →
      ((7 : FileId), t) ∈ c4batch.files_changed →
      WriteEvent.fileText 7 (t.getD "") (durability ⟨true, [7]⟩) ∈
        c4db'.events) ∧
    ((SourceRoot.mk true [7]).is_library = true →
      durability ⟨true, [7]⟩ = Durability.high) ∧
    ((SourceRoot.mk true [7]).is_library = false →
      durability ⟨true, [7]⟩ = Durability.low)) :=
  ⟨by decide, rfl, rfl,
   durability_classification initDB c4batch c4db' c4roots 0 ⟨true, [7]⟩ 7
     (by decide) rfl rfl⟩

/-- C6: a files-changed entry supplying no text resets the file's text to the
empty string — the file keeps its FileId-to-root association untouched — and
no `apply_change` call ever deletes a FileId: every file-to-root binding and
every file text present before a successful batch is still present after
it. -/
theorem file_none_empties_text (db : RootDatabase) (f : FileId)
    (i : SourceRootId) (r : SourceRoot)
    (h1 : lookupA db.file_source_root f = some i)
    (h2 : lookupA db.source_roots i = some r) :
    (∃ db', db.apply_change ⟨none, [(f, none)], none⟩ = some db' ∧
      lookupA db'.file_text f = some "" ∧
      db'.file_source_root = db.file_source_root) ∧
    (∀ (c : AnalysisChange) (db2 : RootDatabase),
      db.apply_change c = some db2 →
      ∀ g : FileId,
        ((lookupA db.file_source_root g).isSome →
          (lookupA db2.file_source_root g).isSome) ∧
        ((lookupA db.file_text g).isSome →
          (lookupA db2.file_text g).isSome)) := by
  constructor
  · have hone : (db.request_cancellation).applyOneFileChange f none =
        some ((db.request_cancellation).set_file_text_with_durability f ""
          (durability r)) := by
      unfold RootDatabase.applyOneFileChange
      have h1' : lookupA (db.request_cancellation).file_source_root f =
          some i := h1
      have h2' : lookupA (db.request_cancellation).source_roots i =
          some r := h2
      rw [h1']
      dsimp only
      rw [h2']
      rfl
    have hAFC : applyFilesChanged db.request_cancellation [(f, none)] =
        some ((db.request_cancellation).set_file_text_with_durability f ""
          (durability r)) := by
      show (match (db.request_cancellation).applyOneFileChange f none with
        | none => none
        | some db2 => applyFilesChanged db2 []) = _
      rw [hone]
      rfl
    refine ⟨(db.request_cancellation).set_file_text_with_durability f ""
      (durability r), ?_, ?_, rfl⟩
    · simp only [RootDatabase.apply_change]
      rw [hAFC]
    · show lookupA (setA db.file_text f "") f = some ""
      exact lookupA_setA_self _ _ _
  · intro c db2 hc g
    obtain ⟨db1, hA, hdb2⟩ := apply_change_some db c db2 hc
    constructor
    · intro hsome
      have hR : (lookupA (match c.roots with
          | some roots => (db.request_cancellation).applyRoots roots
          | none => db.request_cancellation).file_source_root g).isSome := by
        cases hr : c.roots with
        | none => exact hsome
        | some roots =>
          dsimp only
          rw [applyRoots_file_source_root, installRootsLoop_file_source_root]
          cases har : assignedRootFrom 0 roots g with
          | some j => rfl
          | none => exact hsome
      have h1f := (applyFilesChanged_fields _ _ _ hA).1
      have hmid : (lookupA db1.file_source_root g).isSome := by
        rw [h1f]
        exact hR
      cases hg : c.crate_graph with
      | none =>
        rw [hg] at hdb2
        dsimp only at hdb2
        rw [hdb2]
        exact hmid
      | some gg =>
        rw [hg] at hdb2
        dsimp only at hdb2
        rw [hdb2]
        exact hmid
    · intro hsome
      have hR : (lookupA (match c.roots with
          | some roots => (db.request_cancellation).applyRoots roots
          | none => db.request_cancellation).file_text g).isSome := by
        cases hr : c.roots with
        | none => exact hsome
        | some roots =>
          dsimp only
          rw [applyRoots_file_text,
            (installRootsLoop_fields roots _ 0).1]
          exact hsome
      have hmid := applyFilesChanged_file_text_isSome _ _ _ hA g hR
      cases hg : c.crate_graph with
      | none =>
        rw [hg] at hdb2
        dsimp only at hdb2
        rw [hdb2]
        exact hmid
      | some gg =>
        rw [hg] at hdb2
        dsimp only at hdb2
        rw [hdb2]
        exact hmid

/-- Witness for C6 at a concrete input: emptying file 3's text in `c6db`
keeps its root association. -/
theorem file_none_empties_text_witness :
    lookupA c6db.file_source_root 3 = some 0 ∧
    lookupA c6db.source_roots 0 = some ⟨false, [3]⟩ ∧
    ∃ db', c6db.apply_change ⟨none, [(3, none)], none⟩ = some db' ∧
      lookupA db'.file_text 3 = some "" ∧
      db'.file_source_root = c6db.file_source_root :=
  ⟨by decide, by decide,
   (file_none_empties_text c6db 3 0 ⟨false, [3]⟩ (by decide) (by decide)).1⟩

/-- C7: whenever a batch replaces the root set, the two aggregate sets are
written at HIGH durability regardless of the member roots' own durability;
the local set holds exactly the indices of the non-library roots, the library
set exactly the indices of the library roots, and together they cover exactly
the contiguously assigned ids 0..N-1. -/
theorem aggregate_roots_high (db : RootDatabase) (c : AnalysisChange)
    (db' : RootDatabase) (roots : List SourceRoot)
    (h : db.apply_change c = some db') (hroots : c.roots = some roots) :
    WriteEvent.localRoots db'.local_roots Durability.high ∈ db'.events ∧
    WriteEvent.libraryRoots db'.library_roots Durability.high ∈ db'.events ∧
    (∀ j : Nat, j ∈ db'.local_roots ↔
      ∃ r, roots.get? j = some r ∧ r.is_library = false) ∧
    (∀ j : Nat, j ∈ db'.library_roots ↔
      ∃ r, roots.get? j = some r ∧ r.is_library = true) ∧
    (∀ j : Nat, (j ∈ db'.local_roots ∨ j ∈ db'.library_roots) ↔
      j < roots.length) := by
  obtain ⟨hl, hlib⟩ := apply_change_roots_state db c db' roots h hroots
  have he1 : WriteEvent.localRoots
      (installRootsLoop db.request_cancellation 0 roots).2.1
      Durability.high ∈ db'.events := by
    refine apply_change_mem_events db c db' roots h hroots _ ?_
    rw [applyRoots_events]
    refine List.mem_append_left _ (List.mem_append_right _ ?_)
    exact List.mem_singleton.mpr rfl
  have he2 : WriteEvent.libraryRoots
      (installRootsLoop db.request_cancellation 0 roots).2.2
      Durability.high ∈ db'.events := by
    refine apply_change_mem_events db c db' roots h hroots _ ?_
    rw [applyRoots_events]
    exact List.mem_append_right _ (List.mem_singleton.mpr rfl)
  refine ⟨by rw [hl]; exact he1, by rw [hlib]; exact he2, ?_, ?_, ?_⟩
  · intro j
    rw [hl, installRootsLoop_locals_mem]
    constructor
    · rintro ⟨k, r, hk, hr, hjk⟩
      have hj : j = k := by omega
      subst hj
      exact ⟨r, hk, hr⟩
    · rintro ⟨r, hk, hr⟩
      exact ⟨j, r, hk, hr, by omega⟩
  · intro j
    rw [hlib, installRootsLoop_libs_mem]
    constructor
    · rintro ⟨k, r, hk, hr, hjk⟩
      have hj : j = k := by omega
      subst hj
      exact ⟨r, hk, hr⟩
    · rintro ⟨r, hk, hr⟩
      exact ⟨j, r, hk, hr, by omega⟩
  · intro j
    rw [hl, hlib, installRootsLoop_locals_mem, installRootsLoop_libs_mem]
    constructor
    · rintro (⟨k, r, hk, -, hjk⟩ | ⟨k, r, hk, -, hjk⟩) <;>
      · have hj : j = k := by omega
        subst hj
        obtain ⟨hlen, -⟩ := List.get?_eq_some.mp hk
        exact hlen
    · intro hj
      cases hb : (roots.get ⟨j, hj⟩).is_library with
      | false =>
        exact Or.inl ⟨j, roots.get ⟨j, hj⟩, (List.get?_eq_get hj), hb,
          by omega⟩
      | true =>
        exact Or.inr ⟨j, roots.get ⟨j, hj⟩, (List.get?_eq_get hj), hb,
          by omega⟩

/-- Witness for C7 at a concrete input: one local root (file 1) and one
library root (file 2). -/
theorem aggregate_roots_high_witness :
    initDB.apply_change c7batch = some c7db' ∧
    c7batch.roots = some c7roots ∧
    (WriteEvent.localRoots c7db'.local_roots Durability.high ∈
      c7db'.events ∧
    WriteEvent.libraryRoots c7db'.library_roots Durability.high ∈
      c7db'.events ∧
    (∀ j : Nat, j ∈ c7db'.local_roots ↔
      ∃ r, c7roots.get? j = some r ∧ r.is_library = false) ∧
    (∀ j : Nat, j ∈ c7db'.library_roots ↔
      ∃ r, c7roots.get? j = some r ∧ r.is_library = true) ∧
    (∀ j : Nat, (j ∈ c7db'.local_roots ∨ j ∈ c7db'.library_roots) ↔
      j < c7roots.length)) :=
  ⟨by decide, rfl,
   aggregate_roots_high initDB c7batch c7db' c7roots (by decide) rfl⟩
